import Mathlib

/-
  Verification of mcp-rust-docs-embed against its specification.

  This file shallowly embeds the parts of the Rust source that the claims
  are about, and proves or refutes each claim against that embedding.
  Machine integers never overflow in the modelled fragments, so Nat is used
  throughout.  External collaborators (the Qdrant vector store, the OpenAI
  embedding endpoint, the `url` and `text_splitter` crates, tree-sitter)
  are modelled where a claim depends on them; every such model is marked in
  the doc comment of the definition.
-/

namespace RustDocsEmbed

/-! ## Collection naming (src/utils.rs) -/

/-- Model of Rust `str::replace(pat, repl)` for a one-character pattern and a
one-character replacement string: every occurrence of `pat` is replaced. -/
def replaceChar (pat repl : Char) (s : String) : String :=
  ⟨s.data.map (fun c => if c = pat then repl else c)⟩

/-- src/utils.rs `gen_table_name`: deterministic Qdrant collection name for a
crate name and version:
`format!("{}_v{}", crate_name.replace('-', "_"), version.replace('.', "_"))`. -/
def gen_table_name (crate_name version : String) : String :=
  replaceChar '-' '_' crate_name ++ "_v" ++ replaceChar '.' '_' version

/-- src/utils.rs `gen_table_name_without_version`: collection name for a
repository-based target: `format!("repo_{}", crate_name.replace('-', "_"))`. -/
def gen_table_name_without_version (crate_name : String) : String :=
  "repo_" ++ replaceChar '-' '_' crate_name

lemma replaceChar_data (pat repl : Char) (s : String) :
    (replaceChar pat repl s).data = s.data.map (fun c => if c = pat then repl else c) := rfl

lemma string_append_data (a b : String) : (a ++ b).data = a.data ++ b.data := rfl

lemma string_data_injective {a b : String} (h : a.data = b.data) : a = b := by
  cases a; cases b; exact congrArg String.mk h

lemma replaceChar_append (pat repl : Char) (a b : String) :
    replaceChar pat repl (a ++ b) = replaceChar pat repl a ++ replaceChar pat repl b := by
  apply string_data_injective
  simp [replaceChar_data, string_append_data]

lemma replaceChar_underscore : replaceChar '-' '_' "_" = "_" := by decide

/-- Claim C1 (corrected): the package-target collection name is
`name.replace('-',"_") ++ "_v" ++ version.replace('.',"_")` with NO
lowercasing (the code never lowercases); the literal scenario S1 holds
because its input is already lowercase; and the repository shape
`"repo_" ++ owner' ++ "_" ++ repo'` (hyphens mapped to underscores in both
parts) is produced by `gen_table_name_without_version` when its single
argument is the owner and repository joined by `'_'`. -/
theorem C1_collection_names :
    (∀ name version : String,
      gen_table_name name version =
        replaceChar '-' '_' name ++ "_v" ++ replaceChar '.' '_' version) ∧
    gen_table_name "my-crate" "1.0.0" = "my_crate_v1_0_0" ∧
    (∀ owner repo : String,
      gen_table_name_without_version (owner ++ "_" ++ repo) =
        "repo_" ++ replaceChar '-' '_' owner ++ "_" ++ replaceChar '-' '_' repo) := by
  refine ⟨fun _ _ => rfl, by decide, fun owner repo => ?_⟩
  unfold gen_table_name_without_version
  rw [replaceChar_append, replaceChar_append, replaceChar_underscore]
  simp [String.append_assoc]

/-- Claim C1, counterexample: the spec says the package name is lowercased
(`lowercase(package.replace('-','_'))`), but `gen_table_name` performs no
lowercasing: for the package target `{name:"My-Crate", version:"1.0.0"}`
the derived collection name is `"My_Crate_v1_0_0"`, not `"my_crate_v1_0_0"`. -/
theorem C1_no_lowercase_counterexample :
    gen_table_name "My-Crate" "1.0.0" = "My_Crate_v1_0_0" ∧
    gen_table_name "My-Crate" "1.0.0" ≠ "my_crate_v1_0_0" := by
  constructor <;> decide

/-- Claim C6, counterexample: `gen_table_name` is not injective on arbitrary
(package, version) pairs.  Hyphen/underscore aliasing collides
(`("a-b","1")` vs `("a_b","1")`), and the `"_v"` separator is ambiguous even
for hyphen-only packages and underscore-free versions
(`("a-v1","2")` vs `("a","1.v2")` both give `"a_v1_v2"`). -/
theorem C6_not_injective_counterexample :
    gen_table_name "a-b" "1" = gen_table_name "a_b" "1" ∧
    ("a-b" : String) ≠ "a_b" ∧
    gen_table_name "a-v1" "2" = gen_table_name "a" "1.v2" ∧
    (("a-v1" : String), ("2" : String)) ≠ (("a" : String), ("1.v2" : String)) := by
  refine ⟨by decide, by decide, by decide, by decide⟩

lemma sep_split_unique :
    ∀ (a1 : List Char) (a2 b1 b2 : List Char),
      a1 ++ '_' :: 'v' :: b1 = a2 ++ '_' :: 'v' :: b2 →
      'v' ∉ b1 → 'v' ∉ b2 → a1 = a2 ∧ b1 = b2 := by
  intro a1
  induction a1 with
  | nil =>
    intro a2 b1 b2 h hb1 hb2
    match a2 with
    | [] =>
      simp only [List.nil_append, List.cons.injEq, true_and] at h
      exact ⟨rfl, h⟩
    | [x] =>
      simp only [List.nil_append, List.cons_append, List.cons.injEq] at h
      exact absurd h.2.1.symm (by decide)
    | x :: y :: a2tl =>
      simp only [List.nil_append, List.cons_append, List.cons.injEq] at h
      exact absurd (h.2.2 ▸ List.mem_append_right a2tl (by simp)) hb1
  | cons c a1tl ih =>
    intro a2 b1 b2 h hb1 hb2
    match a2 with
    | [] =>
      match a1tl, h with
      | [], h =>
        simp only [List.cons_append, List.nil_append, List.cons.injEq] at h
        exact absurd h.2.1 (by decide)
      | z :: a1tl2, h =>
        simp only [List.cons_append, List.nil_append, List.cons.injEq] at h
        exact absurd (h.2.2.symm ▸ List.mem_append_right a1tl2 (by simp)) hb2
    | d :: a2tl =>
      simp only [List.cons_append, List.cons.injEq] at h
      obtain ⟨rfl, h⟩ := h
      obtain ⟨h1, h2⟩ := ih a2tl b1 b2 h hb1 hb2
      exact ⟨by rw [h1], h2⟩

lemma map_replaceChar_inj {pat repl : Char} :
    ∀ (l1 l2 : List Char), repl ∉ l1 → repl ∉ l2 →
      l1.map (fun c => if c = pat then repl else c) =
        l2.map (fun c => if c = pat then repl else c) → l1 = l2 := by
  intro l1
  induction l1 with
  | nil =>
    intro l2 _ _ h
    cases l2 with
    | nil => rfl
    | cons d tl => simp at h
  | cons c tl ih =>
    intro l2 h1 h2 h
    cases l2 with
    | nil => simp at h
    | cons d tl2 =>
      simp only [List.map_cons, List.cons.injEq] at h
      have hc : c ≠ repl := fun hc => h1 (hc ▸ List.mem_cons_self c tl)
      have hd : d ≠ repl := fun hd => h2 (hd ▸ List.mem_cons_self d tl2)
      have hcd : c = d := by
        by_cases hcp : c = pat <;> by_cases hdp : d = pat <;>
          simp [hcp, hdp] at h ⊢ <;> first
            | rfl
            | exact absurd h.1.symm hd
            | exact absurd h.1 hc
            | exact h.1
      refine congrArg₂ List.cons hcd ?_
      exact ih tl2 (fun hm => h1 (List.mem_cons_of_mem c hm))
        (fun hm => h2 (List.mem_cons_of_mem d hm)) h.2

lemma mem_of_mem_map_replace {pat repl x : Char} {l : List Char}
    (hx : x ≠ repl) (h : x ∈ l.map (fun c => if c = pat then repl else c)) : x ∈ l := by
  obtain ⟨c, hc, hcx⟩ := List.mem_map.mp h
  by_cases hcp : c = pat
  · exact absurd (by simpa [hcp] using hcx.symm) hx
  · rw [if_neg hcp] at hcx
    exact hcx ▸ hc

/-- Claim C6 (amended): within the package+version shape the collection-name
mapping is injective once restricted to inputs free of the aliasing the
counterexample exhibits: package names containing no `'_'` and versions
containing neither `'_'` nor the letter `'v'`.  Distinct such pairs derive
distinct collection names. -/
theorem C6_gen_table_name_injective (p1 v1 p2 v2 : String)
    (hp1 : '_' ∉ p1.data) (hp2 : '_' ∉ p2.data)
    (hv1u : '_' ∉ v1.data) (hv1v : 'v' ∉ v1.data)
    (hv2u : '_' ∉ v2.data) (hv2v : 'v' ∉ v2.data)
    (h : gen_table_name p1 v1 = gen_table_name p2 v2) : p1 = p2 ∧ v1 = v2 := by
  have hdata : p1.data.map (fun c => if c = '-' then '_' else c) ++ '_' :: 'v' ::
      v1.data.map (fun c => if c = '.' then '_' else c) =
      p2.data.map (fun c => if c = '-' then '_' else c) ++ '_' :: 'v' ::
      v2.data.map (fun c => if c = '.' then '_' else c) := by
    have := congrArg String.data h
    simpa [gen_table_name, string_append_data, replaceChar_data] using this
  have hv1img : 'v' ∉ v1.data.map (fun c => if c = '.' then '_' else c) :=
    fun hm => hv1v (mem_of_mem_map_replace (by decide) hm)
  have hv2img : 'v' ∉ v2.data.map (fun c => if c = '.' then '_' else c) :=
    fun hm => hv2v (mem_of_mem_map_replace (by decide) hm)
  obtain ⟨hp, hv⟩ := sep_split_unique _ _ _ _ hdata hv1img hv2img
  constructor
  · exact string_data_injective (map_replaceChar_inj _ _ hp1 hp2 hp)
  · exact string_data_injective (map_replaceChar_inj _ _ hv1u hv2u hv)

/-- Witness for `C6_gen_table_name_injective` at concrete inputs. -/
theorem C6_gen_table_name_injective_witness :
    ("my-crate" : String) = "my-crate" ∧ ("1.0.0" : String) = "1.0.0" :=
  C6_gen_table_name_injective "my-crate" "1.0.0" "my-crate" "1.0.0"
    (by decide) (by decide) (by decide) (by decide) (by decide) (by decide) rfl

/-! ## Embedding configuration and the metadata sentinel (src/config.rs, src/data_store.rs) -/

/-- src/config.rs `EmbeddingConfig`. -/
structure EmbeddingConfig where
  vector_size : Nat
  chunk_size : Nat
  chunk_overlap : Float
  batch_size : Nat

/-- src/config.rs `EmbeddingConfig::default`. -/
def EmbeddingConfig.defaultConfig : EmbeddingConfig :=
  { vector_size := 1024, chunk_size := 1000, chunk_overlap := 0.0, batch_size := 32 }

/-- src/data_store.rs `try_new` / `try_new_without_version` / `reset`: when a
collection is created, its declared vector size is
`EmbeddingConfig::default().vector_size`. -/
def collection_declared_vector_size : Nat := EmbeddingConfig.defaultConfig.vector_size

/-- src/data_store.rs `store_metadata`: the vector stored with the metadata
sentinel point (ID 0) is `vec![0.0; 1536]`. -/
def store_metadata_vector : List Float := List.replicate 1536 0.0

/-- Claim C5 (code bug): the metadata sentinel's zero vector has length 1536,
while every collection is created with declared vector size 1024
(`EmbeddingConfig::default().vector_size`); the two never agree, so the
sentinel's vector length does not equal the collection's declared vector
size. -/
theorem C5_metadata_vector_length_mismatch :
    store_metadata_vector.length = 1536 ∧
    collection_declared_vector_size = 1024 ∧
    store_metadata_vector.length ≠ collection_declared_vector_size := by
  have h1 : store_metadata_vector.length = 1536 := by
    unfold store_metadata_vector
    rw [List.length_replicate]
  have h2 : collection_declared_vector_size = 1024 := rfl
  exact ⟨h1, h2, by rw [h1, h2]; decide⟩

/-! ## Collection metadata retrieval (src/data_store.rs `get_metadata`)

`get_metadata` issues a point fetch for ID 0 against the external vector
store and decodes the `"metadata"` payload field with serde.  The external
pieces are modelled as inputs: the fetch result (a store error or a list of
returned points whose payloads are association lists of JSON values), and
the serde decoder for the metadata value. -/

/-- src/data_store.rs `EmbeddingMetadata`. -/
structure EmbeddingMetadata where
  crate_name : String
  version : String
  features : List String
  embedded_at : String
  embedding_model : String
  doc_count : Nat
deriving DecidableEq

/-- Opaque stand-in for a JSON value occurring in a Qdrant payload. -/
structure PayloadValue where
  raw : String
deriving DecidableEq

/-- A point returned by the vector store: its payload as an association list. -/
structure StorePoint where
  payload : List (String × PayloadValue)

/-- Model of `qdrant_client::Qdrant::get_points`: either a store-layer error
(any message) or a response carrying a list of points. -/
inductive FetchResult where
  | storeError (msg : String)
  | ok (points : List StorePoint)

/-- src/data_store.rs `get_metadata`, with the store fetch and the serde
decoder passed in: `match get_points(..).await { Ok(response) => if let
Some(point) = response.result.first() && let Some(v) = point.payload.get
("metadata") { serde_json::from_value(v)? ... Ok(Some(..)) } else Ok(None),
Err(_) => Ok(None) }`.  A decode failure (`?` on `serde_json::from_value`)
propagates as an error; a fetch failure or an absent metadata field does
not. -/
def get_metadata (decode : PayloadValue → Option EmbeddingMetadata)
    (fetch : FetchResult) : Except String (Option EmbeddingMetadata) :=
  match fetch with
  | FetchResult.storeError _ => Except.ok none
  | FetchResult.ok points =>
    match points.head? with
    | some point =>
      match (point.payload.lookup "metadata") with
      | some v =>
        match decode v with
        | some m => Except.ok (some m)
        | none => Except.error "serde_json::from_value failed"
      | none => Except.ok none
    | none => Except.ok none

/-- Claim C9 (confirmed): `get_metadata` swallows store-layer failures — a
failed fetch of point 0 yields `Ok(None)`, and a point whose payload has no
`"metadata"` field also yields `Ok(None)` — so a caller cannot distinguish
"no metadata stored" from "store unavailable". -/
theorem C9_get_metadata_total (decode : PayloadValue → Option EmbeddingMetadata)
    (fetch : FetchResult) (points : List StorePoint) (point : StorePoint) :
    (∀ msg, fetch = FetchResult.storeError msg →
      get_metadata decode fetch = Except.ok none) ∧
    (fetch = FetchResult.ok points → points.head? = some point →
      point.payload.lookup "metadata" = none →
      get_metadata decode fetch = Except.ok none) ∧
    (fetch = FetchResult.ok [] → get_metadata decode fetch = Except.ok none) := by
  refine ⟨fun msg h => by simp [h, get_metadata], fun h hhead hlook => ?_, fun h => ?_⟩
  · simp [h, get_metadata, hhead, hlook]
  · simp [h, get_metadata]

/-- Witness for `C9_get_metadata_total` at concrete inputs: a store error and
a metadata-free point both produce `Ok(None)`. -/
theorem C9_get_metadata_total_witness :
    get_metadata (fun _ => none) (FetchResult.storeError "connection refused") =
      Except.ok none ∧
    get_metadata (fun _ => none)
      (FetchResult.ok [{ payload := [("content", ⟨"fn main() \x7b\x7d"⟩)] }]) =
      Except.ok none := by
  constructor
  · exact (C9_get_metadata_total (fun _ => none)
      (FetchResult.storeError "connection refused") [] ⟨[]⟩).1 _ rfl
  · exact (C9_get_metadata_total (fun _ => none)
      (FetchResult.ok [{ payload := [("content", ⟨"fn main() \x7b\x7d"⟩)] }])
      [{ payload := [("content", ⟨"fn main() \x7b\x7d"⟩)] }]
      { payload := [("content", ⟨"fn main() \x7b\x7d"⟩)] }).2.1 rfl rfl (by decide)

/-! ## Tool server: operation registry, status tool and embed pre-checks
(src/backend.rs)

The registry `embed_operations : Arc<RwLock<HashMap<String, EmbedOperation>>>`
is modelled as an association list threaded through each tool in
state-passing style.  Externals consumed by `embed_crate` (crates.io
version resolution, the crates.io feature list, the Qdrant existence check
and the stored metadata) are inputs of the model. -/

/-- src/backend.rs `EmbedStatus`. -/
inductive EmbedStatus where
  | inProgress
  | completed
  | failed
deriving DecidableEq

/-- src/backend.rs `EmbedOperation`. -/
structure EmbedOperation where
  status : EmbedStatus
  crate_name : String
  version : String
  message : String
deriving DecidableEq

/-- The in-memory operation registry `operation_id → record`. -/
abbrev Registry := List (String × EmbedOperation)

/-- src/error.rs `BackendError`, restricted to the variants the modelled
tools produce, plus `invalidRequest` for the `McpError::invalid_request`
responses that `embed_crate` builds directly. -/
inductive BackendErr where
  | versionResolutionFailed (crate_name : String)
  | operationNotFound (operation_id : String)
  | invalidRequest (msg : String)
deriving DecidableEq

/-- src/backend.rs: the `status_text` match inside `query_embed_status`. -/
def status_text : EmbedStatus → String
  | EmbedStatus.inProgress => "in_progress"
  | EmbedStatus.completed => "completed"
  | EmbedStatus.failed => "failed"

/-- src/backend.rs `query_embed_status`: clones the record out under a read
lock (`ops_lock.get(&req.operation_id).cloned()`), then either formats the
status line or fails with `OperationNotFound`.  The registry is returned so
the frame property (no mutation) is expressible. -/
def query_embed_status (ops : Registry) (operation_id : String) :
    Except BackendErr String × Registry :=
  let op_data := ops.lookup operation_id
  match op_data with
  | some op =>
    (Except.ok ("Embed operation " ++ operation_id ++ " for " ++ op.crate_name ++
      " v" ++ op.version ++ ": " ++ status_text op.status ++ " - " ++ op.message), ops)
  | none => (Except.error (BackendErr.operationNotFound operation_id), ops)

/-- Claim C10 (confirmed): the status tool is read-only on the registry — for
every operation id, known or unknown, `query_embed_status` leaves the
registry unchanged, returning the formatted status for a known id and
`OperationNotFound` for an unknown one. -/
theorem C10_query_embed_status_readonly (ops : Registry) (operation_id : String) :
    (query_embed_status ops operation_id).2 = ops ∧
    (ops.lookup operation_id = none →
      (query_embed_status ops operation_id).1 =
        Except.error (BackendErr.operationNotFound operation_id)) ∧
    (∀ op, ops.lookup operation_id = some op →
      (query_embed_status ops operation_id).1 =
        Except.ok ("Embed operation " ++ operation_id ++ " for " ++ op.crate_name ++
          " v" ++ op.version ++ ": " ++ status_text op.status ++ " - " ++ op.message)) := by
  refine ⟨?_, fun h => ?_, fun op h => ?_⟩
  · unfold query_embed_status
    cases ops.lookup operation_id <;> rfl
  · simp [query_embed_status, h]
  · simp [query_embed_status, h]

/-- A sample registry entry used by the witnesses. -/
def op_serde : EmbedOperation :=
  ⟨EmbedStatus.inProgress, "serde", "1.0.0",
   "Starting documentation generation and embedding process"⟩

/-- Witness for `C10_query_embed_status_readonly`: a one-entry registry,
queried with its key and with an unknown key. -/
theorem C10_query_embed_status_readonly_witness :
    (query_embed_status [("embed_serde_1", op_serde)] "embed_serde_1").2 =
      [("embed_serde_1", op_serde)] ∧
    (query_embed_status [] "nope").1 =
      Except.error (BackendErr.operationNotFound "nope") :=
  ⟨(C10_query_embed_status_readonly _ "embed_serde_1").1,
   (C10_query_embed_status_readonly [] "nope").2.1 rfl⟩

/-- Lexicographic order on character lists, by code point. -/
def charListLe : List Char → List Char → Bool
  | [], _ => true
  | _ :: _, [] => false
  | c :: cs, d :: ds =>
    if c.toNat < d.toNat then true
    else if d.toNat < c.toNat then false
    else charListLe cs ds

/-- Lexicographic order on strings (Rust `Ord` for `String`, by code point). -/
def strLe (a b : String) : Bool := charListLe a.data b.data

/-- Insert a string into an already sorted list (ascending). -/
def insertSorted (s : String) : List String → List String
  | [] => [s]
  | t :: ts => if strLe s t then s :: t :: ts else t :: insertSorted s ts

/-- Sorting used by `embed_crate` to compare feature lists
(`existing_features.sort(); requested_features.sort()`): Rust's stable
ascending sort, modelled by insertion sort. -/
def sortStrings (l : List String) : List String :=
  l.foldr insertSorted []

/-- External results consumed by src/backend.rs `embed_crate` before it
decides whether to spawn an ingestion. -/
structure EmbedEnv where
  /-- result of `resolve_latest_crate_version`, consulted when the requested
  version is empty or `"*"` (`none` models `Err`) -/
  resolveLatest : Option String
  /-- result of `get_crate_features` (`none` models `Err`) -/
  availableFeatures : Option (List String)
  /-- `QDRANT_URL` is readable and the Qdrant client builds -/
  qdrantOk : Bool
  /-- result of `collection_exists` (`none` models `Err`) -/
  collectionExists : Option Bool
  /-- result of `DataStore::get_metadata`; the code's
  `if let Ok(Some(metadata))` treats `Err(_)` and `Ok(None)` identically, so
  both are modelled as `none` -/
  metadata : Option EmbeddingMetadata

/-- src/backend.rs `EmbedRequest`. -/
structure EmbedRequest where
  crate_name : String
  version : String
  features : List String

/-- What one `embed_crate` call produced: its reply, whether it inserted an
operation record, and whether it spawned a background ingestion task. -/
structure EmbedOutcome where
  result : Except BackendErr String
  opCreated : Bool
  ingestionSpawned : Bool

/-- src/backend.rs `embed_crate`, up to and including the decision to spawn:
resolve the version (empty or `"*"` means latest), validate the requested
features against the crates.io feature set, then — when the collection
already exists — compare sorted metadata features with the sorted request
(equal: idempotent success; unequal: invalid-request conflict; no metadata:
legacy success), and only otherwise insert an `InProgress` operation and
spawn the ingestion task. -/
def embed_crate (env : EmbedEnv) (req : EmbedRequest) (ops : Registry)
    (operation_id : String) : EmbedOutcome × Registry :=
  match (if req.version = "" ∨ req.version = "*" then env.resolveLatest
         else some req.version) with
  | none =>
    ({ result := Except.error (BackendErr.versionResolutionFailed req.crate_name),
       opCreated := false, ingestionSpawned := false }, ops)
  | some version =>
    match env.availableFeatures with
    | none =>
      ({ result := Except.error (BackendErr.invalidRequest
           "Failed to fetch available features"),
         opCreated := false, ingestionSpawned := false }, ops)
    | some available_features =>
      let invalid_features := req.features.filter
        (fun f => !available_features.contains f)
      if invalid_features ≠ [] then
        ({ result := Except.error (BackendErr.invalidRequest
             ("Invalid features for " ++ req.crate_name ++ " v" ++ version)),
           opCreated := false, ingestionSpawned := false }, ops)
      else if env.qdrantOk ∧ env.collectionExists = some true then
        match env.metadata with
        | some metadata =>
          let existing_features := sortStrings metadata.features
          let requested_features := sortStrings req.features
          if existing_features = requested_features then
            ({ result := Except.ok ("Documentation for " ++ req.crate_name ++
                 " v" ++ version ++ " is already embedded with features"),
               opCreated := false, ingestionSpawned := false }, ops)
          else
            ({ result := Except.error (BackendErr.invalidRequest
                 ("Documentation for " ++ req.crate_name ++ " v" ++ version ++
                  " already exists with different features")),
               opCreated := false, ingestionSpawned := false }, ops)
        | none =>
          ({ result := Except.ok ("Documentation for " ++ req.crate_name ++ " v" ++
               version ++ " is already embedded (legacy embedding without feature " ++
               "tracking)"),
             opCreated := false, ingestionSpawned := false }, ops)
      else
        ({ result := Except.ok ("Started documentation generation and embedding " ++
             "process with ID: " ++ operation_id),
           opCreated := true, ingestionSpawned := true },
         (operation_id,
          { status := EmbedStatus.inProgress, crate_name := req.crate_name,
            version := version,
            message := "Starting documentation generation and embedding process" })
           :: ops)

/-- Claim C3 (confirmed): when the target collection already exists with
stored metadata and the request passes version resolution and feature
validation, `embed_crate` is decided entirely by the sorted feature lists —
equal: idempotent success with no operation created, no ingestion spawned
and an unchanged registry; unequal: an invalid-request conflict, again with
no operation, no ingestion and an unchanged registry. -/
theorem C3_embed_conflict_precheck (env : EmbedEnv) (req : EmbedRequest)
    (ops : Registry) (operation_id : String) (version : String)
    (available_features : List String) (metadata : EmbeddingMetadata)
    (hv : (if req.version = "" ∨ req.version = "*" then env.resolveLatest
           else some req.version) = some version)
    (hf : env.availableFeatures = some available_features)
    (hvalid : req.features.filter (fun f => !available_features.contains f) = [])
    (hq : env.qdrantOk = true)
    (he : env.collectionExists = some true)
    (hm : env.metadata = some metadata) :
    (sortStrings metadata.features = sortStrings req.features →
      (embed_crate env req ops operation_id).1.result =
        Except.ok ("Documentation for " ++ req.crate_name ++ " v" ++ version ++
          " is already embedded with features") ∧
      (embed_crate env req ops operation_id).1.opCreated = false ∧
      (embed_crate env req ops operation_id).1.ingestionSpawned = false ∧
      (embed_crate env req ops operation_id).2 = ops) ∧
    (sortStrings metadata.features ≠ sortStrings req.features →
      (embed_crate env req ops operation_id).1.result =
        Except.error (BackendErr.invalidRequest
          ("Documentation for " ++ req.crate_name ++ " v" ++ version ++
           " already exists with different features")) ∧
      (embed_crate env req ops operation_id).1.opCreated = false ∧
      (embed_crate env req ops operation_id).1.ingestionSpawned = false ∧
      (embed_crate env req ops operation_id).2 = ops) := by
  constructor
  · intro heq
    simp only [embed_crate, hv, hf, hvalid, hq, he, hm]
    simp [heq]
  · intro hne
    simp only [embed_crate, hv, hf, hvalid, hq, he, hm]
    simp [hne]

/-- Metadata on file for serde 1.0.0 with features `["derive"]` (scenario S7). -/
def meta_s7 : EmbeddingMetadata :=
  ⟨"serde", "1.0.0", ["derive"], "2024-01-01T00:00:00Z",
   "text-embedding-3-small", 7⟩

/-- Environment for scenario S7: the collection exists and carries `meta_s7`. -/
def env_s7 : EmbedEnv :=
  ⟨none, some ["derive", "std"], true, some true, some meta_s7⟩

/-- Request of scenario S7: serde 1.0.0 with features `["derive", "std"]`. -/
def req_s7 : EmbedRequest := ⟨"serde", "1.0.0", ["derive", "std"]⟩

/-- Witness for `C3_embed_conflict_precheck`, mirroring scenario S7: the
collection for serde 1.0.0 exists with features `["derive"]` and the request
asks for `["derive", "std"]` — a conflict, with no operation created and no
ingestion started. -/
theorem C3_embed_conflict_precheck_witness :
    (embed_crate env_s7 req_s7 [] "embed_serde_op").1.result =
      Except.error (BackendErr.invalidRequest
        ("Documentation for serde v1.0.0 already exists with different features")) ∧
    (embed_crate env_s7 req_s7 [] "embed_serde_op").1.ingestionSpawned = false ∧
    (embed_crate env_s7 req_s7 [] "embed_serde_op").2 = [] := by
  have h := (C3_embed_conflict_precheck env_s7 req_s7 [] "embed_serde_op" "1.0.0"
    ["derive", "std"] meta_s7
    (by decide) rfl (by decide) rfl rfl rfl).2 (by decide)
  refine ⟨?_, h.2.2.1, h.2.2.2⟩
  have heq : ("Documentation for " ++ req_s7.crate_name ++ " v" ++ "1.0.0" ++
      " already exists with different features" : String) =
      "Documentation for serde v1.0.0 already exists with different features" := by
    decide
  rw [← heq]
  exact h.1

/-! ## Ingestion pipelines (src/documentation.rs, src/github_processor.rs)

Both pipelines are modelled by the sequence of operations they issue
against the vector store.  The embedding endpoint is a parameter
(`embedBatch`, mapping a batch of texts to the returned vectors).
`buffer_unordered(5)` makes the completion order of batches
nondeterministic; the model fixes batch order, which is irrelevant to the
counting and metadata properties proved here. -/

/-- One observable operation against the vector store during an ingestion. -/
inductive StoreOp where
  | reset
  | upsertContent (content : String)
  | writeMetadata (doc_count : Nat)
deriving DecidableEq

/-- Partition a list into consecutive batches of at most `n` elements
(Rust `slice::chunks(n)`). -/
def batchesOf (n : Nat) (l : List String) : List (List String) :=
  if h : l = [] then []
  else if hn : n = 0 then [l]
  else l.take n :: batchesOf n (l.drop n)
termination_by l.length
decreasing_by
  have hl : 0 < l.length := List.length_pos.mpr h
  have hn2 : 0 < n := Nat.pos_of_ne_zero hn
  simp only [List.length_drop]
  omega

/-- src/documentation.rs / src/github_processor.rs `embed_chunks`: chunks are
partitioned into batches of at most `BATCH_SIZE = 50`; each batch goes to the
embedding endpoint; the response vectors are paired positionally with the
batch (`batch.get(i)` silently drops surplus response entries), and every
pair is upserted with its content. -/
def embed_chunks_ops (embedBatch : List String → List (List Float))
    (chunks : List String) : List StoreOp :=
  ((batchesOf 50 chunks).map (fun batch =>
    ((batch.zip (embedBatch batch)).map
      (fun pair => StoreOp.upsertContent pair.1)))).flatten

/-- src/documentation.rs `generate_and_embed_docs`: load the doc items
(modelled as their rendered strings), reset the data store, embed and upsert
every chunk — and return.  No metadata is ever written on this path. -/
def generate_and_embed_docs_ops (embedBatch : List String → List (List Float))
    (doc_items : List String) : List StoreOp :=
  StoreOp.reset :: embed_chunks_ops embedBatch doc_items

/-- src/github_processor.rs `process_and_embed_github_repo`: flatten the
per-file chunks (modelled as their contents), reset, embed and upsert, then
`store_metadata(doc_count)` where `doc_count` is the number of chunks. -/
def process_and_embed_github_repo_ops (embedBatch : List String → List (List Float))
    (chunks : List String) : List StoreOp :=
  StoreOp.reset :: (embed_chunks_ops embedBatch chunks ++
    [StoreOp.writeMetadata chunks.length])

/-- The metadata record visible in a collection after a sequence of store
operations: `reset` deletes it (delete-then-create), `write_metadata`
installs it, upserts leave it unchanged. -/
def metadataAfter (ops : List StoreOp) : Option Nat :=
  ops.foldl
    (fun acc op =>
      match op with
      | StoreOp.reset => none
      | StoreOp.upsertContent _ => acc
      | StoreOp.writeMetadata n => some n)
    none

lemma embed_chunks_ops_upserts (embedBatch : List String → List (List Float))
    (chunks : List String) :
    ∀ op ∈ embed_chunks_ops embedBatch chunks, ∃ s, op = StoreOp.upsertContent s := by
  intro op hop
  simp only [embed_chunks_ops, List.mem_flatten, List.mem_map] at hop
  obtain ⟨l, ⟨batch, _, rfl⟩, hopl⟩ := hop
  obtain ⟨pair, _, rfl⟩ := List.mem_map.mp hopl
  exact ⟨pair.1, rfl⟩

lemma metadataAfter_preserved (l : List StoreOp)
    (h : ∀ op ∈ l, ∃ s, op = StoreOp.upsertContent s) (acc : Option Nat) :
    l.foldl
      (fun acc op =>
        match op with
        | StoreOp.reset => none
        | StoreOp.upsertContent _ => acc
        | StoreOp.writeMetadata n => some n)
      acc = acc := by
  induction l generalizing acc with
  | nil => rfl
  | cons op rest ih =>
    obtain ⟨s, rfl⟩ := h op (List.mem_cons_self op rest)
    exact ih (fun o ho => h o (List.mem_cons_of_mem _ ho)) acc

/-- Claim C2 (code bug): the crate-documentation ingestion
(`generate_and_embed_docs`) completes successfully without ever writing the
metadata record — after any run of it the collection holds no metadata — so
"after every ingestion the metadata record exists with
doc_count = number of upserted points" fails on this path.  By contrast the
repository ingestion (`process_and_embed_github_repo`) does end with exactly
one `store_metadata(doc_count)` after all content upserts. -/
theorem C2_crate_ingestion_never_writes_metadata :
    (∀ (embedBatch : List String → List (List Float)) (doc_items : List String),
      metadataAfter (generate_and_embed_docs_ops embedBatch doc_items) = none) ∧
    (∀ (embedBatch : List String → List (List Float)) (chunks : List String),
      metadataAfter (process_and_embed_github_repo_ops embedBatch chunks) =
        some chunks.length) := by
  constructor
  · intro embedBatch doc_items
    unfold metadataAfter generate_and_embed_docs_ops
    simp only [List.foldl_cons]
    exact metadataAfter_preserved _ (embed_chunks_ops_upserts embedBatch doc_items) none
  · intro embedBatch chunks
    unfold metadataAfter process_and_embed_github_repo_ops
    simp only [List.foldl_cons, List.foldl_append]
    rfl

/-! ## Repository reference parsing (src/chunk_repo.rs `parse_repo_url`)

`parse_repo_url` delegates URL recognition to the external `url` crate and
adds only the `owner/repo` shorthand fallback.  `Url::parse` is modelled
just deeply enough for the inputs the claim ranges over: an absolute URL
`scheme://host/seg/...` parses into its components and prints back
unchanged; a string without `"://"` (such as `owner/repo`) has no scheme
and is not a URL. -/

/-- Split a character list at every occurrence of `sep` (Rust
`str::split(char)`): `"a/b"` gives `["a","b"]`, `""` gives `[""]`. -/
def splitOnChar (sep : Char) : List Char → List (List Char)
  | [] => [[]]
  | c :: rest =>
    if c = sep then [] :: splitOnChar sep rest
    else
      match splitOnChar sep rest with
      | [] => [[c]]
      | h :: t => (c :: h) :: t

/-- Split a character list at the first occurrence of `"://"`, returning the
part before and the part after, or `none` if the separator is absent. -/
def splitSchemeSep : List Char → Option (List Char × List Char)
  | [] => none
  | ':' :: '/' :: '/' :: rest => some ([], rest)
  | c :: rest =>
    match splitSchemeSep rest with
    | some (pre, post) => some (c :: pre, post)
    | none => none

/-- Minimal model of `url::Url`: scheme, host, and path segments. -/
structure ModelUrl where
  scheme : String
  host : String
  pathSegments : List String
deriving DecidableEq

/-- Model of `url::Url::parse` for the shapes exercised here: splits off
`scheme://`, then the host and the `/`-separated path.  A string without
`"://"` (e.g. `owner/repo`) fails to parse, as in the `url` crate. -/
def urlParse (s : String) : Option ModelUrl :=
  match splitSchemeSep s.data with
  | none => none
  | some (schemeChars, restChars) =>
    if schemeChars = [] ∨ restChars = [] then none
    else
      match splitOnChar '/' restChars with
      | [] => none
      | host :: segs =>
        some { scheme := ⟨schemeChars⟩, host := ⟨host⟩,
               pathSegments := segs.map (fun l => ⟨l⟩) }

/-- Printing a `ModelUrl` back to a string (`Url::as_str` on these shapes). -/
def urlToString (u : ModelUrl) : String :=
  u.scheme ++ "://" ++ u.host ++
    (u.pathSegments.foldl (fun acc seg => acc ++ "/" ++ seg) "")

/-- src/chunk_repo.rs `parse_repo_url`: a parseable URL is returned as-is;
otherwise an input with exactly two `/`-separated parts
(`repo.split('/').count() == 2`) is resolved against
`https://github.com/`; anything else fails with
"Invalid input: expected URL or owner/repo format". -/
def parse_repo_url (repo : String) : Except String ModelUrl :=
  match urlParse repo with
  | some url => Except.ok url
  | none =>
    if (splitOnChar '/' repo.data).length = 2 then
      match urlParse ("https://github.com/" ++ repo) with
      | some url => Except.ok url
      | none => Except.error "url parse error"
    else Except.error "Invalid input: expected URL or owner/repo format"

/-- Claim C4, counterexample: the parser does NOT canonicalize: the deep
GitHub URL of scenario S3 is accepted and returned with all its path
segments intact, not truncated to `https://github.com/0xDAEF0F/da-crawler`. -/
theorem C4_no_canonicalization_counterexample :
    (parse_repo_url "https://github.com/0xDAEF0F/da-crawler/blob/master/utils/x.ts").map
        urlToString =
      Except.ok "https://github.com/0xDAEF0F/da-crawler/blob/master/utils/x.ts" ∧
    ("https://github.com/0xDAEF0F/da-crawler/blob/master/utils/x.ts" : String) ≠
      "https://github.com/0xDAEF0F/da-crawler" := by
  constructor
  · rfl
  · decide

/-- Claim C4 (amended): `parse_repo_url` accepts every parseable URL and
passes it through unchanged (no stripping of path segments beyond
owner/repo); it resolves the two-segment `owner/repo` shorthand against the
default host `https://github.com/`; and it fails on every input that is
neither a URL nor two `/`-separated segments. -/
theorem C4_parse_repo_url_cases (s : String) (u : ModelUrl) :
    (urlParse s = some u → parse_repo_url s = Except.ok u) ∧
    (urlParse s = none → (splitOnChar '/' s.data).length = 2 →
      parse_repo_url s = (match urlParse ("https://github.com/" ++ s) with
        | some url => Except.ok url
        | none => Except.error "url parse error")) ∧
    (urlParse s = none → (splitOnChar '/' s.data).length ≠ 2 →
      parse_repo_url s =
        Except.error "Invalid input: expected URL or owner/repo format") := by
  refine ⟨fun h => ?_, fun h h2 => ?_, fun h h2 => ?_⟩
  · simp [parse_repo_url, h]
  · simp [parse_repo_url, h, h2]
  · simp [parse_repo_url, h, h2]

/-- Witness for `C4_parse_repo_url_cases`: the S2 shorthand
`tokio-rs/tokio` resolves against the default host, and a non-URL,
non-shorthand input fails. -/
theorem C4_parse_repo_url_cases_witness :
    parse_repo_url "tokio-rs/tokio" =
      Except.ok { scheme := "https", host := "github.com",
                  pathSegments := ["tokio-rs", "tokio"] } ∧
    parse_repo_url "not a repository reference" =
      Except.error "Invalid input: expected URL or owner/repo format" := by
  constructor
  · have h := (C4_parse_repo_url_cases "tokio-rs/tokio"
      ⟨"https", "github.com", ["tokio-rs", "tokio"]⟩).2.1 rfl (by rfl)
    rw [h]
    rfl
  · exact (C4_parse_repo_url_cases "not a repository reference"
      ⟨"https", "github.com", []⟩).2.2 rfl (by decide)

/-! ## Chunk kinds (src/chunks/types.rs) -/

/-- src/chunks/types.rs `ChunkKind`. -/
inductive ChunkKind where
  | Struct
  | Enum
  | Function
  | Impl
  | Comment
  | MarkdownSection
  | Class
  | Interface
  | TypeAlias
  | Const
deriving DecidableEq

/-! ## Markdown chunking (src/chunks/markdown.rs)

`extract_markdown_chunks` delegates the actual splitting to the external
`text_splitter::MarkdownSplitter`, built with `ChunkConfig::new(MAX_TOKENS)`
and NO `.with_sizer(..)`: `ChunkConfig::new(capacity)` uses the library's
default `Characters` sizer, so the capacity `8192` counts characters, not
BPE tokens (the lazily initialized BPE in that file is used only inside a
`trace!` log line).  The splitter is modelled as an input `splits`: the list
of `(offset, chunk_text)` pairs it yields, constrained by the library's
contract for a `Characters`-sized splitter (`validMarkdownSplit` below);
offsets are modelled in characters. -/

/-- src/chunks/types.rs `Chunk` as produced by the markdown chunker. -/
structure MdChunk where
  kind : ChunkKind
  start_line : Nat
  end_line : Nat
  content : String
deriving DecidableEq

/-- The `text_splitter` contract for `MarkdownSplitter::new(ChunkConfig::new
(8192))` (default `Characters` sizer): every yielded chunk is a slice of the
source at its offset and holds at most 8192 CHARACTERS. -/
def validMarkdownSplit (source : String) (splits : List (Nat × String)) : Prop :=
  ∀ p ∈ splits,
    p.2.data = (source.data.drop p.1).take p.2.data.length ∧
    p.2.data.length ≤ 8192

/-- src/chunks/markdown.rs `extract_markdown_chunks`: for every split,
`start_line` is one plus the number of newlines before the offset and
`end_line` adds the newlines inside the chunk text. -/
def extract_markdown_chunks (source : String) (splits : List (Nat × String)) :
    List MdChunk :=
  splits.map (fun split =>
    { kind := ChunkKind.MarkdownSection,
      start_line := (source.data.take split.1).count '\n' + 1,
      end_line := (source.data.take split.1).count '\n' + 1 + split.2.data.count '\n',
      content := split.2 })

/-- Claim C7: what the markdown chunker actually guarantees.  Chunks respect
the 8192-CHARACTER capacity of the default `Characters` sizer (their BPE
token count is unconstrained, contrary to the claim's token bound), and
line ranges are 1-based and ordered. -/
theorem C7_markdown_char_capacity (source : String)
    (splits : List (Nat × String)) (hvalid : validMarkdownSplit source splits) :
    ∀ c ∈ extract_markdown_chunks source splits,
      c.content.data.length ≤ 8192 ∧ 1 ≤ c.start_line ∧ c.start_line ≤ c.end_line := by
  intro c hc
  simp only [extract_markdown_chunks, List.mem_map] at hc
  obtain ⟨p, hp, rfl⟩ := hc
  exact ⟨(hvalid p hp).2, Nat.le_add_left 1 _, Nat.le_add_right _ _⟩

/-- Witness for `C7_markdown_char_capacity` at the two-chunk split of a
five-character source. -/
theorem C7_markdown_char_capacity_witness :
    validMarkdownSplit "ab\ncd" [(0, "ab\n"), (3, "cd")] ∧
    ∀ c ∈ extract_markdown_chunks "ab\ncd" [(0, "ab\n"), (3, "cd")],
      c.content.data.length ≤ 8192 ∧ 1 ≤ c.start_line ∧ c.start_line ≤ c.end_line := by
  have hv : validMarkdownSplit "ab\ncd" [(0, "ab\n"), (3, "cd")] := by
    intro p hp
    simp only [List.mem_cons, List.not_mem_nil, or_false] at hp
    rcases hp with rfl | rfl <;> exact ⟨rfl, by decide⟩
  exact ⟨hv, C7_markdown_char_capacity "ab\ncd" _ hv⟩

/-! ## Rust chunking (src/chunks/rust.rs)

`extract_rust_chunks` parses a file with tree-sitter and walks the root's
children in source order.  The tree-sitter layer is modelled by its output:
the list of top-level sibling nodes, each with its kind and its 0-based
start and end rows (`start_position().row` / `end_position().row`).  The
chunk `content` is `trim_to_token_limit(extract_lines(source, range))`,
which delegates to the external BPE; no claim below depends on it, so
chunks are modelled by kind and line range only. -/

/-- Kind of a top-level tree-sitter node in a parsed Rust file.  `other_item`
covers every node kind the chunker neither recognizes nor ignores (e.g.
`mod_item`, `trait_item`). -/
inductive RsNodeKind where
  | struct_item
  | enum_item
  | function_item
  | impl_item
  | line_comment
  | attribute_item
  | use_declaration
  | other_item
deriving DecidableEq

/-- A top-level sibling node: kind, 0-based start row, 0-based end row. -/
structure RsNode where
  kind : RsNodeKind
  start_row : Nat
  end_row : Nat
deriving DecidableEq

/-- The four recognized item kinds of the `process_node` match. -/
def isItemKind : RsNodeKind → Bool
  | RsNodeKind.struct_item => true
  | RsNodeKind.enum_item => true
  | RsNodeKind.function_item => true
  | RsNodeKind.impl_item => true
  | _ => false

/-- The decoration kinds `line_comment` / `attribute_item`. -/
def isDecorationKind : RsNodeKind → Bool
  | RsNodeKind.line_comment => true
  | RsNodeKind.attribute_item => true
  | _ => false

/-- The chunk kind assigned to a recognized item node. -/
def chunkKindOf : RsNodeKind → Option ChunkKind
  | RsNodeKind.struct_item => some ChunkKind.Struct
  | RsNodeKind.enum_item => some ChunkKind.Enum
  | RsNodeKind.function_item => some ChunkKind.Function
  | RsNodeKind.impl_item => some ChunkKind.Impl
  | _ => none

/-- src/chunks/rust.rs `is_adjacent_decoration`:
`matches!(prev.kind(), "line_comment" | "attribute_item") &&
prev.end_position().row + 1 >= next.start_position().row`. -/
def is_adjacent_decoration (previous_sibling next_sibling : RsNode) : Bool :=
  isDecorationKind previous_sibling.kind &&
    (next_sibling.start_row ≤ previous_sibling.end_row + 1)

/-- src/chunks/rust.rs `find_first_decoration`, fused with its call-site
guard in `process_node`: walk the preceding siblings (nearest first in
`prevRev`) while each is an adjacent decoration, returning the earliest
start row reached (the node's own start row when the first sibling already
fails the guard). -/
def find_first_decoration (prevRev : List RsNode) (cur : RsNode) : Nat :=
  match prevRev with
  | [] => cur.start_row
  | p :: ps => if is_adjacent_decoration p cur then find_first_decoration ps p
               else cur.start_row

/-- src/chunks/rust.rs `is_comment_before_item`: look ahead through adjacent
`line_comment` / `attribute_item` siblings; on the first recognized item,
report whether the chain's last node is adjacent to it; stop on anything
else. -/
def is_comment_before_item (cur : RsNode) (rest : List RsNode) : Bool :=
  match rest with
  | [] => false
  | next :: rest2 =>
    if isItemKind next.kind then next.start_row ≤ cur.end_row + 1
    else if isDecorationKind next.kind ∧ next.start_row ≤ cur.end_row + 1 then
      is_comment_before_item next rest2
    else false

/-- src/chunks/rust.rs `find_last_consecutive_comment`: extend through
consecutive adjacent `line_comment` siblings; return the last end row. -/
def find_last_consecutive_comment (cur : RsNode) (rest : List RsNode) : Nat :=
  match rest with
  | [] => cur.end_row
  | next :: rest2 =>
    if next.kind = RsNodeKind.line_comment ∧ next.start_row ≤ cur.end_row + 1 then
      find_last_consecutive_comment next rest2
    else cur.end_row

/-- A chunk of the Rust chunker: kind and 1-based inclusive line range
(content omitted, see the section comment). -/
structure RsChunk where
  kind : ChunkKind
  start_line : Nat
  end_line : Nat
deriving DecidableEq

/-- `mark_lines_processed(s..=e)`: the rows an emitted chunk adds to the
processed set (empty when `e < s`, like Rust's `RangeInclusive`). -/
def rangeRows (s e : Nat) : List Nat :=
  if e < s then [] else List.range' s (e - s + 1)

/-- src/chunks/rust.rs `handle_comment`: a comment preceding an item emits
nothing; otherwise it collapses the consecutive comment run and emits a
Comment chunk covering `start_row ..= find_last_consecutive_comment`,
marking those rows. -/
def handle_comment (node : RsNode) (rest : List RsNode) (start_row : Nat) :
    Option (RsChunk × List Nat) :=
  if is_comment_before_item node rest then none
  else
    let end_row := find_last_consecutive_comment node rest
    some ({ kind := ChunkKind.Comment, start_line := start_row + 1,
            end_line := end_row + 1 }, rangeRows start_row end_row)

/-- src/chunks/rust.rs `process_node`: compute the decoration-extended start
row, then dispatch on the node kind — items emit their chunk and mark their
rows, `line_comment` goes to `handle_comment`, everything else emits
nothing. -/
def process_node (prevRev : List RsNode) (node : RsNode) (rest : List RsNode) :
    Option (RsChunk × List Nat) :=
  let start_row := find_first_decoration prevRev node
  match chunkKindOf node.kind with
  | some k =>
    some ({ kind := k, start_line := start_row + 1, end_line := node.end_row + 1 },
          rangeRows start_row node.end_row)
  | none =>
    if node.kind = RsNodeKind.line_comment then handle_comment node rest start_row
    else none

/-- src/chunks/rust.rs `extract_rust_chunks` main loop: skip
`use_declaration` nodes (`NODES_TO_IGNORE`), skip nodes whose start row is
already processed, otherwise run `process_node` and collect its chunk and
marked rows.  `prevRev` carries the preceding siblings, nearest first, for
`prev_sibling` navigation. -/
def extract_go (prevRev : List RsNode) (rest : List RsNode) (processed : List Nat) :
    List RsChunk :=
  match rest with
  | [] => []
  | n :: rest2 =>
    if n.kind = RsNodeKind.use_declaration then extract_go (n :: prevRev) rest2 processed
    else if processed.contains n.start_row then extract_go (n :: prevRev) rest2 processed
    else
      match process_node prevRev n rest2 with
      | some c => c.1 :: extract_go (n :: prevRev) rest2 (c.2 ++ processed)
      | none => extract_go (n :: prevRev) rest2 processed

/-- src/chunks/rust.rs `extract_rust_chunks`, from the parsed top-level
sibling list. -/
def extract_rust_chunks (nodes : List RsNode) : List RsChunk :=
  extract_go [] nodes []

/-- Claim C8, counterexample.  Three defects of the claim as stated, each on
a concrete top-level sibling list (the parse of, e.g., `struct A; // c`,
`#[a]\n// c`, and `// a\n// b\n#[x]\n// d`):
(1) a trailing comment on the same row as a processed item is silently
skipped, although it is not followed by an item, so it is NOT emitted as a
Comment chunk; (2) a lone comment preceded by an adjacent attribute is
emitted with its span widened to the attribute's row, NOT spanning
first-to-last comment; (3) a two-comment run followed by an adjacent
attribute and another comment yields TWO overlapping Comment chunks, not a
single one. -/
theorem C8_comment_policy_counterexample :
    (extract_rust_chunks [⟨RsNodeKind.struct_item, 0, 0⟩, ⟨RsNodeKind.line_comment, 0, 0⟩] =
       [⟨ChunkKind.Struct, 1, 1⟩] ∧
     is_comment_before_item ⟨RsNodeKind.line_comment, 0, 0⟩ [] = false) ∧
    extract_rust_chunks [⟨RsNodeKind.attribute_item, 0, 0⟩, ⟨RsNodeKind.line_comment, 1, 1⟩] =
      [⟨ChunkKind.Comment, 1, 2⟩] ∧
    extract_rust_chunks [⟨RsNodeKind.line_comment, 0, 0⟩, ⟨RsNodeKind.line_comment, 1, 1⟩,
        ⟨RsNodeKind.attribute_item, 2, 2⟩, ⟨RsNodeKind.line_comment, 3, 3⟩] =
      [⟨ChunkKind.Comment, 1, 2⟩, ⟨ChunkKind.Comment, 1, 4⟩] := by
  refine ⟨⟨?_, ?_⟩, ?_, ?_⟩ <;> rfl

/-- The sibling-row relation tree-sitter guarantees between ordered
siblings that the amended claim additionally strengthens to be strict
(every sibling starts on a line strictly after the previous one ends). -/
def rowLt (a b : RsNode) : Prop := a.end_row < b.start_row

/-- Well-formedness of a top-level sibling list used by the amended claim:
rows within a node are ordered, and distinct siblings occupy strictly
increasing, disjoint line ranges. -/
def nodesWF (ns : List RsNode) : Prop :=
  (∀ n ∈ ns, n.start_row ≤ n.end_row) ∧ List.Pairwise rowLt ns

/-- Number of siblings `find_last_consecutive_comment` walks over: the
length of the consecutive adjacent comment run following `cur`. -/
def commentRun (cur : RsNode) : List RsNode → Nat
  | [] => 0
  | next :: rest =>
    if next.kind = RsNodeKind.line_comment ∧ next.start_row ≤ cur.end_row + 1 then
      commentRun next rest + 1
    else 0

/-- Stateless reformulation of `extract_go`: instead of consulting the
processed-row set, the collapsed comment run is skipped structurally.
`extract_go_eq_specGo` below proves the two agree on well-formed inputs. -/
def specGo (prevRev : List RsNode) (rest : List RsNode) : List RsChunk :=
  match rest with
  | [] => []
  | n :: rest2 =>
    if n.kind = RsNodeKind.use_declaration then specGo (n :: prevRev) rest2
    else
      match process_node prevRev n rest2 with
      | none => specGo (n :: prevRev) rest2
      | some c =>
        if n.kind = RsNodeKind.line_comment then
          c.1 :: specGo ((rest2.take (commentRun n rest2)).reverse ++ n :: prevRev)
            (rest2.drop (commentRun n rest2))
        else c.1 :: specGo (n :: prevRev) rest2
termination_by rest.length
decreasing_by
  all_goals simp only [List.length_cons, List.length_drop]
  all_goals omega

lemma rangeRows_mem (s e r : Nat) : r ∈ rangeRows s e ↔ (s ≤ r ∧ r ≤ e) := by
  unfold rangeRows
  by_cases h : e < s
  · simp only [if_pos h, List.not_mem_nil, false_iff]
    omega
  · simp only [if_neg h, List.mem_range'_1]
    omega

lemma ffd_cases (prevRev : List RsNode) (cur : RsNode) :
    find_first_decoration prevRev cur = cur.start_row ∨
    ∃ p ∈ prevRev, find_first_decoration prevRev cur = p.start_row := by
  induction prevRev generalizing cur with
  | nil => exact Or.inl rfl
  | cons p ps ih =>
    have heq : find_first_decoration (p :: ps) cur =
        if is_adjacent_decoration p cur then find_first_decoration ps p
        else cur.start_row := rfl
    by_cases h : is_adjacent_decoration p cur
    · rw [heq, if_pos h]
      rcases ih p with h2 | ⟨q, hq, h2⟩
      · exact Or.inr ⟨p, List.mem_cons_self p ps, h2⟩
      · exact Or.inr ⟨q, List.mem_cons_of_mem p hq, h2⟩
    · rw [heq, if_neg h]
      exact Or.inl rfl

/-- Behaviour of the comment-run walk on a well-formed suffix: the collapsed
end row dominates the current comment, the `commentRun`-many walked members
are adjacent comments inside the collapsed range, every later sibling starts
strictly after the collapsed range, the collapsed end row is some member's
end row, and a comment immediately after the run is non-adjacent. -/
lemma run_members :
    ∀ (rest : List RsNode) (cur : RsNode),
      (∀ x ∈ cur :: rest, x.start_row ≤ x.end_row) →
      List.Pairwise rowLt (cur :: rest) →
      cur.end_row ≤ find_last_consecutive_comment cur rest ∧
      (∀ m ∈ rest.take (commentRun cur rest),
        m.kind = RsNodeKind.line_comment ∧
        m.start_row ≤ find_last_consecutive_comment cur rest) ∧
      (∀ m ∈ rest.drop (commentRun cur rest),
        find_last_consecutive_comment cur rest < m.start_row) ∧
      (∃ x, (x = cur ∨ x ∈ rest.take (commentRun cur rest)) ∧
        find_last_consecutive_comment cur rest = x.end_row) ∧
      (∀ nxt, (rest.drop (commentRun cur rest)).head? = some nxt →
        nxt.kind = RsNodeKind.line_comment →
        find_last_consecutive_comment cur rest + 1 < nxt.start_row) := by
  intro rest
  induction rest with
  | nil =>
    intro cur _ _
    refine ⟨Nat.le_refl _, ?_, ?_, ?_, ?_⟩
    · intro m hm
      simp [commentRun] at hm
    · intro m hm
      simp [commentRun] at hm
    · exact ⟨cur, Or.inl rfl, rfl⟩
    · intro nxt hnxt
      simp [commentRun] at hnxt
  | cons next rest2 ih =>
    intro cur hord hpw
    have heqf : find_last_consecutive_comment cur (next :: rest2) =
        if next.kind = RsNodeKind.line_comment ∧ next.start_row ≤ cur.end_row + 1 then
          find_last_consecutive_comment next rest2
        else cur.end_row := rfl
    have heqr : commentRun cur (next :: rest2) =
        if next.kind = RsNodeKind.line_comment ∧ next.start_row ≤ cur.end_row + 1 then
          commentRun next rest2 + 1
        else 0 := rfl
    have hcn : cur.end_row < next.start_row := (List.pairwise_cons.mp hpw).1 next
      (List.mem_cons_self next rest2)
    by_cases hcond : next.kind = RsNodeKind.line_comment ∧ next.start_row ≤ cur.end_row + 1
    · have hflcc2 : find_last_consecutive_comment cur (next :: rest2) =
          find_last_consecutive_comment next rest2 := by rw [heqf, if_pos hcond]
      have hrun2 : commentRun cur (next :: rest2) = commentRun next rest2 + 1 := by
        rw [heqr, if_pos hcond]
      rw [hflcc2, hrun2]
      have hord2 : ∀ x ∈ next :: rest2, x.start_row ≤ x.end_row :=
        fun x hx => hord x (List.mem_cons_of_mem cur hx)
      obtain ⟨ih1, ih2, ih3, ih4, ih5⟩ := ih next hord2 hpw.tail
      have hne : next.start_row ≤ next.end_row :=
        hord2 next (List.mem_cons_self next rest2)
      refine ⟨by omega, ?_, ?_, ?_, ?_⟩
      · intro m hm
        rw [List.take_succ_cons] at hm
        rcases List.mem_cons.mp hm with rfl | hm2
        · exact ⟨hcond.1, by omega⟩
        · exact ih2 m hm2
      · intro m hm
        rw [List.drop_succ_cons] at hm
        exact ih3 m hm
      · obtain ⟨x, hx, hxe⟩ := ih4
        refine ⟨x, ?_, hxe⟩
        rw [List.take_succ_cons]
        rcases hx with rfl | hx2
        · exact Or.inr (List.mem_cons_self x _)
        · exact Or.inr (List.mem_cons_of_mem next hx2)
      · intro nxt hnxt
        rw [List.drop_succ_cons] at hnxt
        exact ih5 nxt hnxt
    · have hflcc2 : find_last_consecutive_comment cur (next :: rest2) = cur.end_row := by
        rw [heqf, if_neg hcond]
      have hrun2 : commentRun cur (next :: rest2) = 0 := by
        rw [heqr, if_neg hcond]
      rw [hflcc2, hrun2]
      have hall : ∀ m ∈ next :: rest2, cur.end_row < m.start_row :=
        (List.pairwise_cons.mp hpw).1
      refine ⟨Nat.le_refl _, ?_, ?_, ?_, ?_⟩
      · intro m hm
        simp at hm
      · intro m hm
        rw [List.drop_zero] at hm
        exact hall m hm
      · exact ⟨cur, Or.inl rfl, rfl⟩
      · intro nxt hnxt hk
        rw [List.drop_zero] at hnxt
        simp only [List.head?_cons, Option.some.injEq] at hnxt
        subst hnxt
        rcases not_and_or.mp hcond with h | h
        · exact absurd hk h
        · omega

lemma process_node_item {node : RsNode} {k : ChunkKind}
    (hk : chunkKindOf node.kind = some k) (prevRev rest : List RsNode) :
    process_node prevRev node rest =
      some ({ kind := k, start_line := find_first_decoration prevRev node + 1,
              end_line := node.end_row + 1 },
            rangeRows (find_first_decoration prevRev node) node.end_row) := by
  unfold process_node
  rw [hk]

lemma process_node_comment {node : RsNode}
    (hk : node.kind = RsNodeKind.line_comment) (prevRev rest : List RsNode) :
    process_node prevRev node rest =
      handle_comment node rest (find_first_decoration prevRev node) := by
  unfold process_node
  rw [hk]
  rfl

lemma process_node_none {node : RsNode} (h1 : chunkKindOf node.kind = none)
    (h2 : node.kind ≠ RsNodeKind.line_comment) (prevRev rest : List RsNode) :
    process_node prevRev node rest = none := by
  unfold process_node
  rw [h1]
  simp [h2]

lemma extract_go_cons (prevRev : List RsNode) (n : RsNode) (rest2 : List RsNode)
    (processed : List Nat) :
    extract_go prevRev (n :: rest2) processed =
      if n.kind = RsNodeKind.use_declaration then
        extract_go (n :: prevRev) rest2 processed
      else if processed.contains n.start_row then
        extract_go (n :: prevRev) rest2 processed
      else
        match process_node prevRev n rest2 with
        | some c => c.1 :: extract_go (n :: prevRev) rest2 (c.2 ++ processed)
        | none => extract_go (n :: prevRev) rest2 processed := rfl

lemma specGo_nil (prevRev : List RsNode) : specGo prevRev [] = [] := by
  rw [specGo]

lemma specGo_cons (prevRev : List RsNode) (n : RsNode) (rest2 : List RsNode) :
    specGo prevRev (n :: rest2) =
      if n.kind = RsNodeKind.use_declaration then specGo (n :: prevRev) rest2
      else
        match process_node prevRev n rest2 with
        | none => specGo (n :: prevRev) rest2
        | some c =>
          if n.kind = RsNodeKind.line_comment then
            c.1 :: specGo ((rest2.take (commentRun n rest2)).reverse ++ n :: prevRev)
              (rest2.drop (commentRun n rest2))
          else c.1 :: specGo (n :: prevRev) rest2 := by
  rw [specGo]

lemma ctx_shift (prevRev : List RsNode) (n : RsNode) (rest2 : List RsNode) :
    (n :: prevRev).reverse ++ rest2 = prevRev.reverse ++ (n :: rest2) := by
  simp

lemma ctx_shift_run (prevRev : List RsNode) (n : RsNode) (A B : List RsNode) :
    (A.reverse ++ n :: prevRev).reverse ++ B = prevRev.reverse ++ (n :: (A ++ B)) := by
  simp

lemma ffd_le (prevRev : List RsNode) (cur : RsNode)
    (h : ∀ p ∈ prevRev, p.start_row ≤ cur.start_row) :
    find_first_decoration prevRev cur ≤ cur.start_row := by
  rcases ffd_cases prevRev cur with he | ⟨p, hp, he⟩
  · rw [he]
  · rw [he]
    exact h p hp

lemma extract_go_skip_marked :
    ∀ (run : List RsNode) (prevRev rest : List RsNode) (processed : List Nat),
      (∀ m ∈ run, m.kind ≠ RsNodeKind.use_declaration ∧ m.start_row ∈ processed) →
      extract_go prevRev (run ++ rest) processed =
        extract_go (run.reverse ++ prevRev) rest processed := by
  intro run
  induction run with
  | nil =>
    intro prevRev rest processed _
    simp
  | cons m run2 ih =>
    intro prevRev rest processed h
    obtain ⟨hm1, hm2⟩ := h m (List.mem_cons_self m run2)
    have hcont : processed.contains m.start_row = true := by
      exact List.elem_eq_true_of_mem hm2
    rw [List.cons_append, extract_go_cons, if_neg hm1, if_pos hcont,
      ih (m :: prevRev) rest processed
        (fun x hx => h x (List.mem_cons_of_mem m hx))]
    congr 1
    simp

/-- On a well-formed sibling list the processed-row set of `extract_go` only
ever excludes the collapsed comment-run members, so `extract_go` agrees with
the stateless `specGo`. -/
lemma extract_go_eq_specGo :
    ∀ (fuel : Nat) (rest prevRev : List RsNode) (processed : List Nat),
      rest.length ≤ fuel →
      (∀ x ∈ prevRev.reverse ++ rest, x.start_row ≤ x.end_row) →
      List.Pairwise rowLt (prevRev.reverse ++ rest) →
      (∀ r ∈ processed, ∀ n ∈ rest, r < n.start_row) →
      extract_go prevRev rest processed = specGo prevRev rest := by
  intro fuel
  induction fuel with
  | zero =>
    intro rest prevRev processed hlen _ _ _
    have hnil : rest = [] := List.length_eq_zero.mp (Nat.le_zero.mp hlen)
    subst hnil
    rw [specGo_nil]
    rfl
  | succ f ih =>
    intro rest prevRev processed hlen hord hpw hinv
    match rest with
    | [] =>
      rw [specGo_nil]
      rfl
    | n :: rest2 =>
      have hlen2 : rest2.length ≤ f := by
        simp only [List.length_cons] at hlen
        omega
      have hctx : (n :: prevRev).reverse ++ rest2 = prevRev.reverse ++ (n :: rest2) :=
        ctx_shift prevRev n rest2
      have hord2 : ∀ x ∈ (n :: prevRev).reverse ++ rest2, x.start_row ≤ x.end_row := by
        rw [hctx]
        exact hord
      have hpw2 : List.Pairwise rowLt ((n :: prevRev).reverse ++ rest2) := by
        rw [hctx]
        exact hpw
      have hinv2 : ∀ r ∈ processed, ∀ m ∈ rest2, r < m.start_row :=
        fun r hr m hm => hinv r hr m (List.mem_cons_of_mem n hm)
      have hordS : ∀ x ∈ n :: rest2, x.start_row ≤ x.end_row :=
        fun x hx => hord x (List.mem_append_right _ hx)
      have hpwS : List.Pairwise rowLt (n :: rest2) :=
        ((List.pairwise_append.mp hpw).2.1)
      by_cases hign : n.kind = RsNodeKind.use_declaration
      · rw [extract_go_cons, if_pos hign, specGo_cons, if_pos hign]
        exact ih rest2 (n :: prevRev) processed hlen2 hord2 hpw2 hinv2
      · have hnotmem : n.start_row ∉ processed := fun hmem =>
          absurd (hinv _ hmem n (List.mem_cons_self n rest2)) (lt_irrefl _)
        have hcontn : ¬ (processed.contains n.start_row = true) := fun hc =>
          hnotmem (List.mem_of_elem_eq_true hc)
        rw [extract_go_cons, if_neg hign, if_neg hcontn, specGo_cons, if_neg hign]
        rcases hck : chunkKindOf n.kind with _ | k
        · by_cases hcm : n.kind = RsNodeKind.line_comment
          · rw [process_node_comment hcm]
            by_cases hv : is_comment_before_item n rest2
            · have hhc : handle_comment n rest2 (find_first_decoration prevRev n) =
                  none := by
                unfold handle_comment
                rw [if_pos hv]
              rw [hhc]
              exact ih rest2 (n :: prevRev) processed hlen2 hord2 hpw2 hinv2
            · have hhc : handle_comment n rest2 (find_first_decoration prevRev n) =
                  some ({ kind := ChunkKind.Comment,
                          start_line := find_first_decoration prevRev n + 1,
                          end_line := find_last_consecutive_comment n rest2 + 1 },
                        rangeRows (find_first_decoration prevRev n)
                          (find_last_consecutive_comment n rest2)) := by
                unfold handle_comment
                rw [if_neg hv]
              rw [hhc]
              dsimp only
              rw [if_pos hcm]
              congr 1
              obtain ⟨rm1, rm2, rm3, rm4, rm5⟩ := run_members rest2 n hordS hpwS
              have hsle : find_first_decoration prevRev n ≤ n.start_row := by
                apply ffd_le
                intro p hp
                have hpmem : p ∈ prevRev.reverse := List.mem_reverse.mpr hp
                have hrel : rowLt p n := (List.pairwise_append.mp hpw).2.2 p hpmem n
                  (List.mem_cons_self n rest2)
                have hpse : p.start_row ≤ p.end_row :=
                  hord p (List.mem_append_left _ hpmem)
                unfold rowLt at hrel
                omega
              have hskip : ∀ procAll : List Nat,
                  (∀ m ∈ rest2.take (commentRun n rest2), m.start_row ∈ procAll) →
                  extract_go (n :: prevRev) rest2 procAll =
                    extract_go
                      ((rest2.take (commentRun n rest2)).reverse ++ n :: prevRev)
                      (rest2.drop (commentRun n rest2)) procAll := by
                intro procAll hmemAll
                conv_lhs => rw [← List.take_append_drop (commentRun n rest2) rest2]
                apply extract_go_skip_marked
                intro m hm
                obtain ⟨hmk, hmle⟩ := rm2 m hm
                refine ⟨?_, hmemAll m hm⟩
                rw [hmk]
                decide
              rw [hskip _ ?memAll]
              case memAll =>
                intro m hm
                obtain ⟨hmk, hmle⟩ := rm2 m hm
                apply List.mem_append_left
                rw [rangeRows_mem]
                constructor
                · have hnm : rowLt n m := (List.pairwise_cons.mp hpwS).1 m
                    (List.mem_of_mem_take hm)
                  have hnse : n.start_row ≤ n.end_row :=
                    hordS n (List.mem_cons_self _ _)
                  unfold rowLt at hnm
                  omega
                · exact hmle
              apply ih
              · have hdl : (rest2.drop (commentRun n rest2)).length ≤ rest2.length := by
                  rw [List.length_drop]
                  omega
                omega
              · rw [ctx_shift_run, List.take_append_drop]
                exact hord
              · rw [ctx_shift_run, List.take_append_drop]
                exact hpw
              · intro r hr m hm
                rcases List.mem_append.mp hr with hr1 | hr2
                · have hre : r ≤ find_last_consecutive_comment n rest2 :=
                    ((rangeRows_mem _ _ r).mp hr1).2
                  have := rm3 m hm
                  omega
                · exact hinv2 r hr2 m (List.mem_of_mem_drop hm)
          · rw [process_node_none hck hcm]
            exact ih rest2 (n :: prevRev) processed hlen2 hord2 hpw2 hinv2
        · have hncm : n.kind ≠ RsNodeKind.line_comment := by
            intro h
            rw [h] at hck
            simp [chunkKindOf] at hck
          rw [process_node_item hck]
          dsimp only
          rw [if_neg hncm]
          congr 1
          apply ih rest2 (n :: prevRev) _ hlen2 hord2 hpw2
          intro r hr m hm
          rcases List.mem_append.mp hr with hr1 | hr2
          · have hre : r ≤ n.end_row := ((rangeRows_mem _ _ r).mp hr1).2
            have hnm : rowLt n m := (List.pairwise_cons.mp hpwS).1 m hm
            unfold rowLt at hnm
            omega
          · exact hinv2 r hr2 m hm

lemma verdict_step {cur next : RsNode} {rest : List RsNode}
    (h1 : isDecorationKind next.kind = true)
    (h2 : isItemKind next.kind = false)
    (h3 : next.start_row ≤ cur.end_row + 1) :
    is_comment_before_item cur (next :: rest) = is_comment_before_item next rest := by
  have heq : is_comment_before_item cur (next :: rest) =
      if isItemKind next.kind then decide (next.start_row ≤ cur.end_row + 1)
      else if isDecorationKind next.kind ∧ next.start_row ≤ cur.end_row + 1 then
        is_comment_before_item next rest
      else false := rfl
  rw [heq, h2]
  rw [if_neg (by simp)]
  rw [if_pos ⟨h1, h3⟩]

lemma comment_isDecoration {n : RsNode} (h : n.kind = RsNodeKind.line_comment) :
    isDecorationKind n.kind = true := by
  rw [h]
  rfl

lemma comment_isItem {n : RsNode} (h : n.kind = RsNodeKind.line_comment) :
    isItemKind n.kind = false := by
  rw [h]
  rfl

/-- The sibling the comment-run walk stops at, when it is itself a comment,
is not adjacent to the run's last member. -/
lemma run_pred :
    ∀ (rest : List RsNode) (cur : RsNode) (nxt : RsNode),
      (rest.drop (commentRun cur rest)).head? = some nxt →
      nxt.kind = RsNodeKind.line_comment →
      ∀ p, (cur :: rest.take (commentRun cur rest)).getLast? = some p →
        ¬(nxt.start_row ≤ p.end_row + 1) := by
  intro rest
  induction rest with
  | nil =>
    intro cur nxt hnxt
    simp [commentRun] at hnxt
  | cons next rest2 ih =>
    intro cur nxt hnxt hk p hp
    have heqr : commentRun cur (next :: rest2) =
        if next.kind = RsNodeKind.line_comment ∧ next.start_row ≤ cur.end_row + 1 then
          commentRun next rest2 + 1
        else 0 := rfl
    by_cases hcond : next.kind = RsNodeKind.line_comment ∧ next.start_row ≤ cur.end_row + 1
    · rw [heqr, if_pos hcond] at hnxt hp
      rw [List.drop_succ_cons] at hnxt
      rw [List.take_succ_cons, List.getLast?_cons_cons] at hp
      exact ih next nxt hnxt hk p hp
    · rw [heqr, if_neg hcond] at hnxt hp
      rw [List.drop_zero] at hnxt
      rw [List.take_zero] at hp
      simp only [List.getLast?_singleton, Option.some.injEq] at hp
      subst hp
      simp only [List.head?_cons, Option.some.injEq] at hnxt
      subst hnxt
      intro hadj
      exact hcond ⟨hk, hadj⟩

/-- Invariant between the already-walked prefix and the remainder: when the
immediately preceding sibling is a comment and the next sibling is an
adjacent comment, the next sibling lies before an item (so it will not be
emitted).  `specGo` maintains this along its recursion. -/
def predInv (prevRev rest : List RsNode) : Prop :=
  ∀ p h trest, prevRev.head? = some p → rest = h :: trest →
    p.kind = RsNodeKind.line_comment → h.kind = RsNodeKind.line_comment →
    h.start_row ≤ p.end_row + 1 → is_comment_before_item h trest = true

lemma chunkKindOf_ne_comment {κ : RsNodeKind} {k : ChunkKind}
    (h : chunkKindOf κ = some k) : k ≠ ChunkKind.Comment := by
  cases κ <;> simp [chunkKindOf] at h <;> subst h <;> decide

/-- Every Comment chunk of `specGo` is emitted at a standalone comment `m`
whose span is the decoration-extended start and the collapsed run end, and
the sibling immediately preceding `m` is never an adjacent comment. -/
lemma specGo_comment_chunks :
    ∀ (fuel : Nat) (rest prevRev : List RsNode),
      rest.length ≤ fuel →
      predInv prevRev rest →
      ∀ ch ∈ specGo prevRev rest, ch.kind = ChunkKind.Comment →
        ∃ pre2 m post2, rest = pre2 ++ m :: post2 ∧
          m.kind = RsNodeKind.line_comment ∧
          is_comment_before_item m post2 = false ∧
          ch = { kind := ChunkKind.Comment,
                 start_line := find_first_decoration (pre2.reverse ++ prevRev) m + 1,
                 end_line := find_last_consecutive_comment m post2 + 1 } ∧
          (∀ p, (pre2.reverse ++ prevRev).head? = some p →
            ¬(p.kind = RsNodeKind.line_comment ∧ m.start_row ≤ p.end_row + 1)) := by
  intro fuel
  induction fuel with
  | zero =>
    intro rest prevRev hlen _ ch hch
    have hnil : rest = [] := List.length_eq_zero.mp (Nat.le_zero.mp hlen)
    subst hnil
    rw [specGo_nil] at hch
    simp at hch
  | succ f ih =>
    intro rest prevRev hlen hpi ch hch hchk
    match rest with
    | [] =>
      rw [specGo_nil] at hch
      simp at hch
    | n :: rest2 =>
      have hlen2 : rest2.length ≤ f := by
        simp only [List.length_cons] at hlen
        omega
      rw [specGo_cons] at hch
      -- helper to repackage a decomposition of `rest2` as one of `n :: rest2`
      have hshift : ∀ (pre2 : List RsNode) m post2,
          rest2 = pre2 ++ m :: post2 →
          m.kind = RsNodeKind.line_comment →
          is_comment_before_item m post2 = false →
          ch = { kind := ChunkKind.Comment,
                 start_line :=
                   find_first_decoration (pre2.reverse ++ n :: prevRev) m + 1,
                 end_line := find_last_consecutive_comment m post2 + 1 } →
          (∀ p, (pre2.reverse ++ n :: prevRev).head? = some p →
            ¬(p.kind = RsNodeKind.line_comment ∧ m.start_row ≤ p.end_row + 1)) →
          ∃ pre3 m3 post3, n :: rest2 = pre3 ++ m3 :: post3 ∧
            m3.kind = RsNodeKind.line_comment ∧
            is_comment_before_item m3 post3 = false ∧
            ch = { kind := ChunkKind.Comment,
                   start_line := find_first_decoration (pre3.reverse ++ prevRev) m3 + 1,
                   end_line := find_last_consecutive_comment m3 post3 + 1 } ∧
            (∀ p, (pre3.reverse ++ prevRev).head? = some p →
              ¬(p.kind = RsNodeKind.line_comment ∧ m3.start_row ≤ p.end_row + 1)) := by
        intro pre2 m post2 hdec hmk hmv hche hpred
        refine ⟨n :: pre2, m, post2, by rw [hdec]; rfl, hmk, hmv, ?_, ?_⟩
        · rw [hche]
          congr 2
          simp
        · intro p hp
          apply hpred
          rw [show pre2.reverse ++ n :: prevRev = (n :: pre2).reverse ++ prevRev by simp]
          exact hp
      by_cases hign : n.kind = RsNodeKind.use_declaration
      · rw [if_pos hign] at hch
        have hpi2 : predInv (n :: prevRev) rest2 := by
          intro p h trest hp hr hpc
          rw [List.head?_cons, Option.some.injEq] at hp
          subst hp
          rw [hpc] at hign
          exact absurd hign (by decide)
        obtain ⟨pre2, m, post2, hdec, hmk, hmv, hche, hpred⟩ :=
          ih rest2 (n :: prevRev) hlen2 hpi2 ch hch hchk
        exact hshift pre2 m post2 hdec hmk hmv hche hpred
      · rw [if_neg hign] at hch
        rcases hck : chunkKindOf n.kind with _ | k
        · by_cases hcm : n.kind = RsNodeKind.line_comment
          · by_cases hv : is_comment_before_item n rest2
            · have hhc : handle_comment n rest2 (find_first_decoration prevRev n) =
                  none := by
                unfold handle_comment
                rw [if_pos hv]
              rw [process_node_comment hcm, hhc] at hch
              have hpi2 : predInv (n :: prevRev) rest2 := by
                intro p h trest hp hr hpc hhk hadj
                rw [List.head?_cons, Option.some.injEq] at hp
                subst hp
                subst hr
                rw [verdict_step (comment_isDecoration hhk) (comment_isItem hhk) hadj]
                  at hv
                exact hv
              obtain ⟨pre2, m, post2, hdec, hmk, hmv, hche, hpred⟩ :=
                ih rest2 (n :: prevRev) hlen2 hpi2 ch hch hchk
              exact hshift pre2 m post2 hdec hmk hmv hche hpred
            · have hhc : handle_comment n rest2 (find_first_decoration prevRev n) =
                  some ({ kind := ChunkKind.Comment,
                          start_line := find_first_decoration prevRev n + 1,
                          end_line := find_last_consecutive_comment n rest2 + 1 },
                        rangeRows (find_first_decoration prevRev n)
                          (find_last_consecutive_comment n rest2)) := by
                unfold handle_comment
                rw [if_neg hv]
              rw [process_node_comment hcm, hhc] at hch
              dsimp only at hch
              rw [if_pos hcm] at hch
              rcases List.mem_cons.mp hch with hch1 | hch2
              · -- the chunk emitted at `n` itself
                refine ⟨[], n, rest2, rfl, hcm, by simpa using hv, by simpa using hch1, ?_⟩
                intro p hp hcontra
                simp only [List.reverse_nil, List.nil_append] at hp
                exact hv (hpi p n rest2 hp rfl hcontra.1 hcm hcontra.2)
              · -- a chunk from the continuation after the collapsed run
                have hlen3 : (rest2.drop (commentRun n rest2)).length ≤ f := by
                  rw [List.length_drop]
                  omega
                have hpi3 : predInv
                    ((rest2.take (commentRun n rest2)).reverse ++ n :: prevRev)
                    (rest2.drop (commentRun n rest2)) := by
                  intro p h trest hp hr hpc hhk hadj
                  exfalso
                  have hp2 : (n :: rest2.take (commentRun n rest2)).getLast? = some p := by
                    rw [← List.head?_reverse]
                    rw [List.reverse_cons]
                    rcases hnilq : (rest2.take (commentRun n rest2)).reverse with _ | ⟨q, qs⟩
                    · rw [hnilq] at hp
                      simp only [List.nil_append, List.head?_cons,
                        Option.some.injEq] at hp
                      simp only [hnilq, List.nil_append, List.head?_cons]
                      rw [hp]
                    · rw [hnilq] at hp
                      simp only [List.cons_append, List.head?_cons,
                        Option.some.injEq] at hp
                      simp only [List.cons_append, List.head?_cons]
                      rw [hp]
                  have hnxt : (rest2.drop (commentRun n rest2)).head? = some h := by
                    rw [hr]
                    rfl
                  exact run_pred rest2 n h hnxt hhk p hp2 hadj
                obtain ⟨pre2, m, post2, hdec, hmk, hmv, hche, hpred⟩ :=
                  ih (rest2.drop (commentRun n rest2))
                    ((rest2.take (commentRun n rest2)).reverse ++ n :: prevRev)
                    hlen3 hpi3 ch hch2 hchk
                refine ⟨n :: (rest2.take (commentRun n rest2) ++ pre2), m, post2, ?_,
                  hmk, hmv, ?_, ?_⟩
                · rw [List.cons_append, List.append_assoc, ← hdec,
                    List.take_append_drop]
                · rw [hche]
                  congr 2
                  simp [List.append_assoc]
                · intro p hp
                  apply hpred
                  rw [show pre2.reverse ++
                        ((rest2.take (commentRun n rest2)).reverse ++ n :: prevRev) =
                      (n :: (rest2.take (commentRun n rest2) ++ pre2)).reverse ++
                        prevRev by simp]
                  exact hp
          · rw [process_node_none hck hcm] at hch
            have hpi2 : predInv (n :: prevRev) rest2 := by
              intro p h trest hp hr hpc
              rw [List.head?_cons, Option.some.injEq] at hp
              subst hp
              exact absurd hpc hcm
            obtain ⟨pre2, m, post2, hdec, hmk, hmv, hche, hpred⟩ :=
              ih rest2 (n :: prevRev) hlen2 hpi2 ch hch hchk
            exact hshift pre2 m post2 hdec hmk hmv hche hpred
        · rw [process_node_item hck] at hch
          dsimp only at hch
          have hncm : n.kind ≠ RsNodeKind.line_comment := by
            intro h
            rw [h] at hck
            simp [chunkKindOf] at hck
          rw [if_neg hncm] at hch
          rcases List.mem_cons.mp hch with hch1 | hch2
          · exfalso
            rw [hch1] at hchk
            exact chunkKindOf_ne_comment hck hchk
          · have hpi2 : predInv (n :: prevRev) rest2 := by
              intro p h trest hp hr hpc
              rw [List.head?_cons, Option.some.injEq] at hp
              subst hp
              rw [hpc] at hncm
              exact absurd rfl hncm
            obtain ⟨pre2, m, post2, hdec, hmk, hmv, hche, hpred⟩ :=
              ih rest2 (n :: prevRev) hlen2 hpi2 ch hch2 hchk
            exact hshift pre2 m post2 hdec hmk hmv hche hpred

/-- Every standalone comment (one not before an item) is covered by some
Comment chunk of `specGo` on a well-formed sibling list. -/
lemma specGo_visits :
    ∀ (fuel : Nat) (rest prevRev : List RsNode),
      rest.length ≤ fuel →
      (∀ x ∈ prevRev.reverse ++ rest, x.start_row ≤ x.end_row) →
      List.Pairwise rowLt (prevRev.reverse ++ rest) →
      ∀ pre2 c post2, rest = pre2 ++ c :: post2 →
        c.kind = RsNodeKind.line_comment →
        is_comment_before_item c post2 = false →
        ∃ ch ∈ specGo prevRev rest, ch.kind = ChunkKind.Comment ∧
          ch.start_line ≤ c.start_row + 1 ∧ c.start_row + 1 ≤ ch.end_line := by
  intro fuel
  induction fuel with
  | zero =>
    intro rest prevRev hlen _ _ pre2 c post2 hdec _ _
    have hnil : rest = [] := List.length_eq_zero.mp (Nat.le_zero.mp hlen)
    rw [hnil] at hdec
    exact absurd hdec.symm (List.append_ne_nil_of_right_ne_nil _ (List.cons_ne_nil c post2))
  | succ f ih =>
    intro rest prevRev hlen hord hpw pre2 c post2 hdec hck hcv
    match rest, hdec with
    | _, rfl =>
    match pre2 with
    | [] =>
      rw [List.nil_append]
      rw [List.nil_append] at hord hpw hlen
      -- c is the head and emits the covering chunk
      have hckof : chunkKindOf c.kind = none := by
        rw [hck]
        rfl
      have hhc : handle_comment c post2 (find_first_decoration prevRev c) =
          some ({ kind := ChunkKind.Comment,
                  start_line := find_first_decoration prevRev c + 1,
                  end_line := find_last_consecutive_comment c post2 + 1 },
                rangeRows (find_first_decoration prevRev c)
                  (find_last_consecutive_comment c post2)) := by
        unfold handle_comment
        rw [hcv]
        rw [if_neg (by simp)]
      have hign : c.kind ≠ RsNodeKind.use_declaration := by
        rw [hck]
        decide
      rw [specGo_cons, if_neg hign, process_node_comment hck, hhc]
      dsimp only
      rw [if_pos hck]
      refine ⟨_, List.mem_cons_self _ _, rfl, ?_, ?_⟩
      · show find_first_decoration prevRev c + 1 ≤ c.start_row + 1
        have hsle : find_first_decoration prevRev c ≤ c.start_row := by
          apply ffd_le
          intro p hp
          have hpmem : p ∈ prevRev.reverse := List.mem_reverse.mpr hp
          have hrel : rowLt p c := (List.pairwise_append.mp hpw).2.2 p hpmem c
            (List.mem_cons_self c post2)
          have hpse : p.start_row ≤ p.end_row := hord p (List.mem_append_left _ hpmem)
          unfold rowLt at hrel
          omega
        omega
      · show c.start_row + 1 ≤ find_last_consecutive_comment c post2 + 1
        have hordS : ∀ x ∈ c :: post2, x.start_row ≤ x.end_row :=
          fun x hx => hord x (List.mem_append_right _ hx)
        have hpwS : List.Pairwise rowLt (c :: post2) :=
          (List.pairwise_append.mp hpw).2.1
        obtain ⟨rm1, _, _, _, _⟩ := run_members post2 c hordS hpwS
        have hcse : c.start_row ≤ c.end_row := hordS c (List.mem_cons_self _ _)
        omega
    | n :: pre2' =>
      rw [List.cons_append]
      rw [List.cons_append] at hord hpw hlen
      have hrest2 : (pre2' ++ c :: post2).length ≤ f := by
        simp only [List.length_cons] at hlen
        omega
      have hctx : (n :: prevRev).reverse ++ (pre2' ++ c :: post2) =
          prevRev.reverse ++ (n :: (pre2' ++ c :: post2)) :=
        ctx_shift prevRev n _
      have hord2 : ∀ x ∈ (n :: prevRev).reverse ++ (pre2' ++ c :: post2),
          x.start_row ≤ x.end_row := by
        rw [hctx]
        exact hord
      have hpw2 : List.Pairwise rowLt ((n :: prevRev).reverse ++ (pre2' ++ c :: post2)) := by
        rw [hctx]
        exact hpw
      have hordS : ∀ x ∈ n :: (pre2' ++ c :: post2), x.start_row ≤ x.end_row :=
        fun x hx => hord x (List.mem_append_right _ hx)
      have hpwS : List.Pairwise rowLt (n :: (pre2' ++ c :: post2)) :=
        (List.pairwise_append.mp hpw).2.1
      by_cases hign : n.kind = RsNodeKind.use_declaration
      · rw [specGo_cons, if_pos hign]
        exact ih _ (n :: prevRev) hrest2 hord2 hpw2 pre2' c post2 rfl hck hcv
      · rw [specGo_cons, if_neg hign]
        rcases hck2 : chunkKindOf n.kind with _ | k
        · by_cases hcm : n.kind = RsNodeKind.line_comment
          · by_cases hv : is_comment_before_item n (pre2' ++ c :: post2)
            · have hhc : handle_comment n (pre2' ++ c :: post2)
                  (find_first_decoration prevRev n) = none := by
                unfold handle_comment
                rw [if_pos hv]
              rw [process_node_comment hcm, hhc]
              exact ih _ (n :: prevRev) hrest2 hord2 hpw2 pre2' c post2 rfl hck hcv
            · have hhc : handle_comment n (pre2' ++ c :: post2)
                  (find_first_decoration prevRev n) =
                  some ({ kind := ChunkKind.Comment,
                          start_line := find_first_decoration prevRev n + 1,
                          end_line :=
                            find_last_consecutive_comment n (pre2' ++ c :: post2) + 1 },
                        rangeRows (find_first_decoration prevRev n)
                          (find_last_consecutive_comment n (pre2' ++ c :: post2))) := by
                unfold handle_comment
                rw [if_neg hv]
              rw [process_node_comment hcm, hhc]
              dsimp only
              rw [if_pos hcm]
              obtain ⟨rm1, rm2, rm3, rm4, rm5⟩ :=
                run_members (pre2' ++ c :: post2) n hordS hpwS
              by_cases hkle : commentRun n (pre2' ++ c :: post2) ≤ pre2'.length
              · -- c lies beyond the collapsed run: recurse on the remainder
                have hdrop : (pre2' ++ c :: post2).drop
                    (commentRun n (pre2' ++ c :: post2)) =
                    (pre2'.drop (commentRun n (pre2' ++ c :: post2))) ++ c :: post2 := by
                  rw [List.drop_append_eq_append_drop]
                  rw [show commentRun n (pre2' ++ c :: post2) - pre2'.length = 0 by omega]
                  rfl
                have hlen3 : ((pre2' ++ c :: post2).drop
                    (commentRun n (pre2' ++ c :: post2))).length ≤ f := by
                  rw [List.length_drop]
                  omega
                have hord3 : ∀ x ∈ (((pre2' ++ c :: post2).take
                      (commentRun n (pre2' ++ c :: post2))).reverse ++
                        n :: prevRev).reverse ++
                      (pre2' ++ c :: post2).drop (commentRun n (pre2' ++ c :: post2)),
                    x.start_row ≤ x.end_row := by
                  rw [ctx_shift_run, List.take_append_drop]
                  exact hord
                have hpw3 : List.Pairwise rowLt ((((pre2' ++ c :: post2).take
                      (commentRun n (pre2' ++ c :: post2))).reverse ++
                        n :: prevRev).reverse ++
                      (pre2' ++ c :: post2).drop (commentRun n (pre2' ++ c :: post2))) := by
                  rw [ctx_shift_run, List.take_append_drop]
                  exact hpw
                obtain ⟨ch, hchmem, hchk3, hchs, hche⟩ :=
                  ih _ (((pre2' ++ c :: post2).take
                      (commentRun n (pre2' ++ c :: post2))).reverse ++ n :: prevRev)
                    hlen3 hord3 hpw3 (pre2'.drop (commentRun n (pre2' ++ c :: post2)))
                    c post2 hdrop hck hcv
                exact ⟨ch, List.mem_cons_of_mem _ hchmem, hchk3, hchs, hche⟩
              · -- c lies inside the collapsed run: the head chunk covers it
                have hcin : c ∈ (pre2' ++ c :: post2).take
                    (commentRun n (pre2' ++ c :: post2)) := by
                  rw [List.take_append_eq_append_take]
                  apply List.mem_append_right
                  rcases hkk : commentRun n (pre2' ++ c :: post2) - pre2'.length with _ | kk
                  · omega
                  · rw [List.take_succ_cons]
                    exact List.mem_cons_self c _
                refine ⟨_, List.mem_cons_self _ _, rfl, ?_, ?_⟩
                · show find_first_decoration prevRev n + 1 ≤ c.start_row + 1
                  have hsle : find_first_decoration prevRev n ≤ n.start_row := by
                    apply ffd_le
                    intro p hp
                    have hpmem : p ∈ prevRev.reverse := List.mem_reverse.mpr hp
                    have hrel : rowLt p n := (List.pairwise_append.mp hpw).2.2 p hpmem n
                      (List.mem_cons_self _ _)
                    have hpse : p.start_row ≤ p.end_row :=
                      hord p (List.mem_append_left _ hpmem)
                    unfold rowLt at hrel
                    omega
                  have hnc : rowLt n c := (List.pairwise_cons.mp hpwS).1 c
                    (List.mem_append_right _ (List.mem_cons_self c post2))
                  have hnse : n.start_row ≤ n.end_row := hordS n (List.mem_cons_self _ _)
                  unfold rowLt at hnc
                  omega
                · show c.start_row + 1 ≤
                    find_last_consecutive_comment n (pre2' ++ c :: post2) + 1
                  have := (rm2 c hcin).2
                  omega
          · rw [process_node_none hck2 hcm]
            exact ih _ (n :: prevRev) hrest2 hord2 hpw2 pre2' c post2 rfl hck hcv
        · rw [process_node_item hck2]
          dsimp only
          have hncm : n.kind ≠ RsNodeKind.line_comment := by
            intro h
            rw [h] at hck2
            simp [chunkKindOf] at hck2
          rw [if_neg hncm]
          obtain ⟨ch, hchmem, hchk3, hchs, hche⟩ :=
            ih _ (n :: prevRev) hrest2 hord2 hpw2 pre2' c post2 rfl hck hcv
          exact ⟨ch, List.mem_cons_of_mem _ hchmem, hchk3, hchs, hche⟩

/-- Forward decoration chain from `c` through the siblings `X` (forward
order) into `cur`: every step is an adjacent decoration. -/
def fchain : RsNode → List RsNode → RsNode → Prop
  | c, [], cur => is_adjacent_decoration c cur = true
  | c, x :: X, cur => is_adjacent_decoration c x = true ∧ fchain x X cur

lemma fchain_snoc : ∀ (X : List RsNode) (c a cur : RsNode),
    fchain c X a → is_adjacent_decoration a cur = true → fchain c (X ++ [a]) cur := by
  intro X
  induction X with
  | nil =>
    intro c a cur h1 h2
    exact ⟨h1, h2⟩
  | cons x X2 ih =>
    intro c a cur h1 h2
    exact ⟨h1.1, ih x a cur h1.2 h2⟩

lemma adj_parts {p q : RsNode} (h : is_adjacent_decoration p q = true) :
    isDecorationKind p.kind = true ∧ q.start_row ≤ p.end_row + 1 := by
  unfold is_adjacent_decoration at h
  simp only [Bool.and_eq_true, decide_eq_true_eq] at h
  exact h

lemma fchain_src_dec : ∀ {x : RsNode} {X : List RsNode} {m : RsNode},
    fchain x X m → isDecorationKind x.kind = true := by
  intro x X m h
  cases X with
  | nil => exact (adj_parts h).1
  | cons y Y => exact (adj_parts h.1).1

lemma deco_not_item {κ : RsNodeKind} (h : isDecorationKind κ = true) :
    isItemKind κ = false := by
  cases κ <;> simp_all [isDecorationKind, isItemKind]

/-- If the decoration-extended start of `cur` reaches at or below the start
row of an earlier sibling `c`, the walk stepped through every sibling
between `c` and `cur`, forming a forward decoration chain from `c`. -/
lemma ffd_le_imp :
    ∀ (A : List RsNode) (c : RsNode) (B : List RsNode) (cur : RsNode),
      find_first_decoration (A ++ c :: B) cur ≤ c.start_row →
      (∀ a ∈ A, c.start_row < a.start_row) →
      c.start_row < cur.start_row →
      fchain c A.reverse cur := by
  intro A
  induction A with
  | nil =>
    intro c B cur hle _ hcur
    simp only [List.nil_append] at hle
    have heq : find_first_decoration (c :: B) cur =
        if is_adjacent_decoration c cur then find_first_decoration B c
        else cur.start_row := rfl
    by_cases h : is_adjacent_decoration c cur
    · exact h
    · rw [heq, if_neg h] at hle
      omega
  | cons a A2 ih =>
    intro c B cur hle ha hcur
    simp only [List.cons_append] at hle
    have heq : find_first_decoration (a :: (A2 ++ c :: B)) cur =
        if is_adjacent_decoration a cur then find_first_decoration (A2 ++ c :: B) a
        else cur.start_row := rfl
    by_cases h : is_adjacent_decoration a cur
    · rw [heq, if_pos h] at hle
      have hchain := ih c B a hle (fun x hx => ha x (List.mem_cons_of_mem a hx))
        (ha a (List.mem_cons_self a A2))
      rw [List.reverse_cons]
      exact fchain_snoc A2.reverse c a cur hchain h
    · rw [heq, if_neg h] at hle
      omega

/-- Along a forward decoration chain the look-ahead verdict is preserved. -/
lemma verdict_through :
    ∀ (X : List RsNode) (c m : RsNode) (post : List RsNode),
      fchain c X m →
      isItemKind m.kind = false → isDecorationKind m.kind = true →
      is_comment_before_item c (X ++ m :: post) = is_comment_before_item m post := by
  intro X
  induction X with
  | nil =>
    intro c m post hch hm1 hm2
    rw [List.nil_append]
    exact verdict_step hm2 hm1 (adj_parts hch).2
  | cons x X2 ih =>
    intro c m post hch hm1 hm2
    obtain ⟨h1, h2⟩ := hch
    have hxdec : isDecorationKind x.kind = true := fchain_src_dec h2
    rw [List.cons_append,
      verdict_step hxdec (deco_not_item hxdec) (adj_parts h1).2]
    exact ih x m post h2 hm1 hm2

/-- The look-ahead verdict is preserved into any member of the consecutive
comment run. -/
lemma verdict_run :
    ∀ (X : List RsNode) (cur c : RsNode) (post2 : List RsNode),
      (X ++ [c]).length ≤ commentRun cur (X ++ c :: post2) →
      is_comment_before_item cur (X ++ c :: post2) = is_comment_before_item c post2 := by
  intro X
  induction X with
  | nil =>
    intro cur c post2 hlen
    simp only [List.nil_append] at hlen ⊢
    have heqr : commentRun cur (c :: post2) =
        if c.kind = RsNodeKind.line_comment ∧ c.start_row ≤ cur.end_row + 1 then
          commentRun c post2 + 1
        else 0 := rfl
    by_cases hcond : c.kind = RsNodeKind.line_comment ∧ c.start_row ≤ cur.end_row + 1
    · exact verdict_step (comment_isDecoration hcond.1) (comment_isItem hcond.1) hcond.2
    · rw [heqr, if_neg hcond] at hlen
      simp at hlen
  | cons x X2 ih =>
    intro cur c post2 hlen
    simp only [List.cons_append, List.length_cons, List.length_append] at hlen ⊢
    have heqr : commentRun cur (x :: (X2 ++ c :: post2)) =
        if x.kind = RsNodeKind.line_comment ∧ x.start_row ≤ cur.end_row + 1 then
          commentRun x (X2 ++ c :: post2) + 1
        else 0 := rfl
    by_cases hcond : x.kind = RsNodeKind.line_comment ∧ x.start_row ≤ cur.end_row + 1
    · rw [verdict_step (comment_isDecoration hcond.1) (comment_isItem hcond.1) hcond.2]
      apply ih
      rw [heqr, if_pos hcond] at hlen
      simp only [List.length_cons, List.length_append] at hlen ⊢
      omega
    · rw [heqr, if_neg hcond] at hlen
      simp at hlen

/-- Two decompositions of the same list either coincide or nest. -/
lemma two_splits :
    ∀ (preA : List RsNode) (a : RsNode) (postA : List RsNode)
      (preB : List RsNode) (b : RsNode) (postB : List RsNode),
      preA ++ a :: postA = preB ++ b :: postB →
      (preA = preB ∧ a = b ∧ postA = postB) ∨
      (∃ mid, preB = preA ++ a :: mid ∧ postA = mid ++ b :: postB) ∨
      (∃ mid, preA = preB ++ b :: mid ∧ postB = mid ++ a :: postA) := by
  intro preA
  induction preA with
  | nil =>
    intro a postA preB b postB h
    cases preB with
    | nil =>
      rw [List.nil_append, List.nil_append] at h
      injection h with h1 h2
      exact Or.inl ⟨rfl, h1, h2⟩
    | cons z preB2 =>
      rw [List.nil_append, List.cons_append] at h
      injection h with h1 h2
      subst h1
      exact Or.inr (Or.inl ⟨preB2, rfl, h2⟩)
  | cons x preA2 ih =>
    intro a postA preB b postB h
    cases preB with
    | nil =>
      rw [List.cons_append, List.nil_append] at h
      injection h with h1 h2
      subst h1
      exact Or.inr (Or.inr ⟨preA2, rfl, h2.symm⟩)
    | cons y preB2 =>
      rw [List.cons_append, List.cons_append] at h
      injection h with h1 h2
      subst h1
      rcases ih a postA preB2 b postB h2 with ⟨e1, e2, e3⟩ | ⟨mid, e1, e2⟩ | ⟨mid, e1, e2⟩
      · exact Or.inl ⟨by rw [e1], e2, e3⟩
      · exact Or.inr (Or.inl ⟨mid, by rw [e1]; rfl, e2⟩)
      · exact Or.inr (Or.inr ⟨mid, by rw [e1]; rfl, e2⟩)

/-- Part A of the amended claim: a comment whose look-ahead verdict is true
(it documents a following item) is covered by no Comment chunk. -/
lemma specA :
    ∀ (ns : List RsNode), nodesWF ns →
      ∀ pre c post, ns = pre ++ c :: post →
        c.kind = RsNodeKind.line_comment →
        is_comment_before_item c post = true →
        ∀ ch ∈ specGo [] ns, ch.kind = ChunkKind.Comment →
          ¬(ch.start_line ≤ c.start_row + 1 ∧ c.start_row + 1 ≤ ch.end_line) := by
  intro ns hwf pre c post hne hck hcv ch hch hchk hcover
  obtain ⟨hordN, hpwN⟩ := hwf
  obtain ⟨pre2, m, post2, hdec2, hmk, hmv, hche, hpred⟩ :=
    specGo_comment_chunks ns.length ns [] (Nat.le_refl _)
      (fun p h trest hp => absurd hp (by simp)) ch hch hchk
  obtain ⟨hc1, hc2⟩ := hcover
  rw [hche] at hc1 hc2
  have hc1s : find_first_decoration (pre2.reverse ++ ([] : List RsNode)) m + 1 ≤
      c.start_row + 1 := hc1
  have hc2s : c.start_row + 1 ≤ find_last_consecutive_comment m post2 + 1 := hc2
  rw [List.append_nil] at hc1s
  have heq2 : pre ++ c :: post = pre2 ++ m :: post2 := hne.symm.trans hdec2
  rcases two_splits pre c post pre2 m post2 heq2 with ⟨_, e2, e3⟩ | ⟨mid, e1, e2⟩ |
    ⟨mid, e1, e2⟩
  · rw [e2, e3, hmv] at hcv
    simp at hcv
  · have hpw2 : List.Pairwise rowLt (c :: (mid ++ m :: post2)) := by
      rw [hne, e2] at hpwN
      exact (List.pairwise_append.mp hpwN).2.1
    have hcse : c.start_row ≤ c.end_row :=
      hordN c (by rw [hne]; exact List.mem_append_right _ (List.mem_cons_self _ _))
    have hlt : ∀ a ∈ mid ++ m :: post2, c.start_row < a.start_row := by
      intro a ha
      have := List.rel_of_pairwise_cons hpw2 ha
      unfold rowLt at this
      omega
    have hrw : pre2.reverse = mid.reverse ++ c :: pre.reverse := by
      rw [e1]
      simp
    rw [hrw] at hc1s
    have hle2 : find_first_decoration (mid.reverse ++ c :: pre.reverse) m ≤
        c.start_row := by omega
    have hchain := ffd_le_imp mid.reverse c pre.reverse m hle2
      (fun a ha => hlt a (List.mem_append_left _ (List.mem_reverse.mp ha)))
      (hlt m (List.mem_append_right _ (List.mem_cons_self _ _)))
    rw [List.reverse_reverse] at hchain
    have hveq := verdict_through mid c m post2 hchain (comment_isItem hmk)
      (comment_isDecoration hmk)
    rw [e2, hveq, hmv] at hcv
    simp at hcv
  · have hpwS : List.Pairwise rowLt (m :: post2) := by
      rw [hdec2] at hpwN
      exact (List.pairwise_append.mp hpwN).2.1
    have hordS : ∀ x ∈ m :: post2, x.start_row ≤ x.end_row := fun x hx =>
      hordN x (by rw [hdec2]; exact List.mem_append_right _ hx)
    obtain ⟨rm1, rm2, rm3, rm4, rm5⟩ := run_members post2 m hordS hpwS
    by_cases hkc : mid.length < commentRun m post2
    · have hlen2 : (mid ++ [c]).length ≤ commentRun m (mid ++ c :: post) := by
        rw [← e2]
        simp only [List.length_append, List.length_cons, List.length_nil]
        omega
      have hveq := verdict_run mid m c post hlen2
      rw [← e2] at hveq
      rw [hveq, hcv] at hmv
      simp at hmv
    · push_neg at hkc
      set k := commentRun m post2 with hk
      have hcmem : c ∈ post2.drop k := by
        rw [e2, List.drop_append_eq_append_drop, Nat.sub_eq_zero_of_le hkc,
          List.drop_zero]
        exact List.mem_append_right _ (List.mem_cons_self _ _)
      have hflc := rm3 c hcmem
      omega

/-- When the comment-run walk from a comment `cur` reaches past `A` into
`b`, then `b` is a comment adjacent to the run's last member before it, and
that member is itself a comment. -/
lemma run_overrun :
    ∀ (A : List RsNode) (cur b : RsNode) (B : List RsNode),
      cur.kind = RsNodeKind.line_comment →
      A.length < commentRun cur (A ++ b :: B) →
      b.kind = RsNodeKind.line_comment ∧
      b.start_row ≤ (A.getLastD cur).end_row + 1 ∧
      (A.getLastD cur).kind = RsNodeKind.line_comment := by
  intro A
  induction A with
  | nil =>
    intro cur b B hcurc h
    simp only [List.nil_append] at h
    have heqr : commentRun cur (b :: B) =
        if b.kind = RsNodeKind.line_comment ∧ b.start_row ≤ cur.end_row + 1 then
          commentRun b B + 1
        else 0 := rfl
    by_cases hc : b.kind = RsNodeKind.line_comment ∧ b.start_row ≤ cur.end_row + 1
    · exact ⟨hc.1, hc.2, hcurc⟩
    · rw [heqr, if_neg hc] at h
      omega
  | cons x A2 ih =>
    intro cur b B hcurc h
    simp only [List.cons_append, List.length_cons] at h
    have heqr : commentRun cur (x :: (A2 ++ b :: B)) =
        if x.kind = RsNodeKind.line_comment ∧ x.start_row ≤ cur.end_row + 1 then
          commentRun x (A2 ++ b :: B) + 1
        else 0 := rfl
    by_cases hc : x.kind = RsNodeKind.line_comment ∧ x.start_row ≤ cur.end_row + 1
    · rw [heqr, if_pos hc] at h
      have h2 : A2.length < commentRun x (A2 ++ b :: B) := by omega
      rw [List.getLastD_cons]
      exact ih x b B hc.1 h2
    · rw [heqr, if_neg hc] at h
      omega

lemma head_rev_getLastD :
    ∀ (A : List RsNode) (a : RsNode) (l : List RsNode),
      ((a :: A).reverse ++ l).head? = some (A.getLastD a) := by
  intro A
  induction A with
  | nil =>
    intro a l
    rfl
  | cons x A2 ih =>
    intro a l
    rw [List.reverse_cons, List.append_assoc, List.getLastD_cons]
    exact ih x ([a] ++ l)

lemma ffd_head_not_adj (l : List RsNode) (cur : RsNode)
    (h : ∀ p, l.head? = some p → is_adjacent_decoration p cur = false) :
    find_first_decoration l cur = cur.start_row := by
  cases l with
  | nil => rfl
  | cons p ps =>
    have hb := h p rfl
    have heq : find_first_decoration (p :: ps) cur =
        if is_adjacent_decoration p cur then find_first_decoration ps p
        else cur.start_row := rfl
    rw [heq, if_neg (by simp [hb])]

/-- Part C of the amended claim: a standalone comment whose immediately
preceding sibling is not an adjacent decoration heads a collapsed run, and
the exact chunk spanning its start row to the run's last end row is
emitted. -/
lemma specGo_exact :
    ∀ (fuel : Nat) (rest prevRev : List RsNode),
      rest.length ≤ fuel →
      ∀ pre2 c post2, rest = pre2 ++ c :: post2 →
        c.kind = RsNodeKind.line_comment →
        is_comment_before_item c post2 = false →
        (∀ p, (pre2.reverse ++ prevRev).head? = some p →
          is_adjacent_decoration p c = false) →
        { kind := ChunkKind.Comment, start_line := c.start_row + 1,
          end_line := find_last_consecutive_comment c post2 + 1 } ∈
          specGo prevRev rest := by
  intro fuel
  induction fuel with
  | zero =>
    intro rest prevRev hlen pre2 c post2 hdec _ _ _
    have hnil : rest = [] := List.length_eq_zero.mp (Nat.le_zero.mp hlen)
    rw [hnil] at hdec
    exact absurd hdec.symm
      (List.append_ne_nil_of_right_ne_nil _ (List.cons_ne_nil c post2))
  | succ f ih =>
    intro rest prevRev hlen pre2 c post2 hdec hck hcv hadj
    match rest, hdec with
    | _, rfl =>
    match pre2 with
    | [] =>
      rw [List.nil_append]
      rw [List.nil_append] at hlen
      simp only [List.reverse_nil, List.nil_append] at hadj
      have hhc : handle_comment c post2 (find_first_decoration prevRev c) =
          some ({ kind := ChunkKind.Comment,
                  start_line := find_first_decoration prevRev c + 1,
                  end_line := find_last_consecutive_comment c post2 + 1 },
                rangeRows (find_first_decoration prevRev c)
                  (find_last_consecutive_comment c post2)) := by
        unfold handle_comment
        rw [hcv]
        rw [if_neg (by simp)]
      have hign : c.kind ≠ RsNodeKind.use_declaration := by
        rw [hck]
        decide
      rw [specGo_cons, if_neg hign, process_node_comment hck, hhc]
      dsimp only
      rw [if_pos hck]
      rw [ffd_head_not_adj prevRev c hadj]
      exact List.mem_cons_self _ _
    | n :: pre2' =>
      rw [List.cons_append]
      rw [List.cons_append] at hlen
      have hrest2 : (pre2' ++ c :: post2).length ≤ f := by
        simp only [List.length_cons] at hlen
        omega
      have hshift : (n :: pre2').reverse ++ prevRev = pre2'.reverse ++ (n :: prevRev) := by
        rw [List.reverse_cons, List.append_assoc]
        rfl
      have hadj2 : ∀ p, (pre2'.reverse ++ (n :: prevRev)).head? = some p →
          is_adjacent_decoration p c = false := by
        intro p hp
        apply hadj p
        rw [hshift]
        exact hp
      by_cases hign : n.kind = RsNodeKind.use_declaration
      · rw [specGo_cons, if_pos hign]
        exact ih _ (n :: prevRev) hrest2 pre2' c post2 rfl hck hcv hadj2
      · rw [specGo_cons, if_neg hign]
        rcases hck2 : chunkKindOf n.kind with _ | k
        · by_cases hcm : n.kind = RsNodeKind.line_comment
          · by_cases hv : is_comment_before_item n (pre2' ++ c :: post2)
            · have hhc : handle_comment n (pre2' ++ c :: post2)
                  (find_first_decoration prevRev n) = none := by
                unfold handle_comment
                rw [if_pos hv]
              rw [process_node_comment hcm, hhc]
              exact ih _ (n :: prevRev) hrest2 pre2' c post2 rfl hck hcv hadj2
            · have hhc : handle_comment n (pre2' ++ c :: post2)
                  (find_first_decoration prevRev n) =
                  some ({ kind := ChunkKind.Comment,
                          start_line := find_first_decoration prevRev n + 1,
                          end_line :=
                            find_last_consecutive_comment n (pre2' ++ c :: post2) + 1 },
                        rangeRows (find_first_decoration prevRev n)
                          (find_last_consecutive_comment n (pre2' ++ c :: post2))) := by
                unfold handle_comment
                rw [if_neg hv]
              rw [process_node_comment hcm, hhc]
              dsimp only
              rw [if_pos hcm]
              have hkle : commentRun n (pre2' ++ c :: post2) ≤ pre2'.length := by
                by_contra hlt
                push_neg at hlt
                obtain ⟨hbk, hble, hlk⟩ := run_overrun pre2' n c post2 hcm hlt
                have hp := hadj (pre2'.getLastD n) (head_rev_getLastD pre2' n prevRev)
                have hpd : isDecorationKind (pre2'.getLastD n).kind = true := by
                  rw [hlk]
                  rfl
                have hpadj : is_adjacent_decoration (pre2'.getLastD n) c = true := by
                  unfold is_adjacent_decoration
                  simp only [Bool.and_eq_true, decide_eq_true_eq]
                  exact ⟨hpd, hble⟩
                rw [hp] at hpadj
                simp at hpadj
              have hdrop : (pre2' ++ c :: post2).drop
                  (commentRun n (pre2' ++ c :: post2)) =
                  (pre2'.drop (commentRun n (pre2' ++ c :: post2))) ++ c :: post2 := by
                rw [List.drop_append_eq_append_drop]
                rw [show commentRun n (pre2' ++ c :: post2) - pre2'.length = 0 by omega]
                rfl
              have hlen3 : ((pre2' ++ c :: post2).drop
                  (commentRun n (pre2' ++ c :: post2))).length ≤ f := by
                rw [List.length_drop]
                omega
              have htk : (pre2' ++ c :: post2).take (commentRun n (pre2' ++ c :: post2)) =
                  pre2'.take (commentRun n (pre2' ++ c :: post2)) := by
                rw [List.take_append_eq_append_take]
                rw [show commentRun n (pre2' ++ c :: post2) - pre2'.length = 0 by omega]
                rw [List.take_zero, List.append_nil]
              have hadj3 : ∀ p,
                  ((pre2'.drop (commentRun n (pre2' ++ c :: post2))).reverse ++
                    (((pre2' ++ c :: post2).take
                      (commentRun n (pre2' ++ c :: post2))).reverse ++
                      n :: prevRev)).head? = some p →
                  is_adjacent_decoration p c = false := by
                intro p hp
                apply hadj2 p
                rw [htk, ← List.append_assoc, ← List.reverse_append,
                  List.take_append_drop] at hp
                exact hp
              exact List.mem_cons_of_mem _
                (ih _ _ hlen3 (pre2'.drop (commentRun n (pre2' ++ c :: post2)))
                  c post2 hdrop hck hcv hadj3)
          · rw [process_node_none hck2 hcm]
            exact ih _ (n :: prevRev) hrest2 pre2' c post2 rfl hck hcv hadj2
        · rw [process_node_item hck2]
          dsimp only
          have hncm : n.kind ≠ RsNodeKind.line_comment := by
            intro h
            rw [h] at hck2
            simp [chunkKindOf] at hck2
          rw [if_neg hncm]
          exact List.mem_cons_of_mem _
            (ih _ (n :: prevRev) hrest2 pre2' c post2 rfl hck hcv hadj2)

/-- Claim C8, amended.  For a well-formed top-level sibling list (ordered
rows, strictly increasing disjoint sibling ranges) and any top-level line
comment `c`: (1) if the source's look-ahead (`is_comment_before_item`,
walking the contiguous chain of adjacent line_comment/attribute_item
siblings to a recognized item) says `c` precedes an item, then no Comment
chunk's line span covers `c`'s line; (2) if the look-ahead fails, some
Comment chunk's span covers `c`'s line; (3) moreover if `c`'s immediately
preceding sibling is not an adjacent decoration, the consecutive comment
run headed by `c` collapses into the Comment chunk spanning exactly `c`'s
start line through the run's last end row. -/
theorem C8_comment_chunk_policy :
    ∀ (ns : List RsNode), nodesWF ns →
      ∀ pre c post, ns = pre ++ c :: post →
        c.kind = RsNodeKind.line_comment →
        ((is_comment_before_item c post = true →
          ∀ ch ∈ extract_rust_chunks ns, ch.kind = ChunkKind.Comment →
            ¬(ch.start_line ≤ c.start_row + 1 ∧ c.start_row + 1 ≤ ch.end_line)) ∧
        (is_comment_before_item c post = false →
          ∃ ch ∈ extract_rust_chunks ns, ch.kind = ChunkKind.Comment ∧
            ch.start_line ≤ c.start_row + 1 ∧ c.start_row + 1 ≤ ch.end_line) ∧
        (is_comment_before_item c post = false →
          (∀ p, pre.reverse.head? = some p → is_adjacent_decoration p c = false) →
          { kind := ChunkKind.Comment, start_line := c.start_row + 1,
            end_line := find_last_consecutive_comment c post + 1 } ∈
            extract_rust_chunks ns)) := by
  intro ns hwf pre c post hdec hck
  have hordE : ∀ x ∈ ([] : List RsNode).reverse ++ ns, x.start_row ≤ x.end_row := by
    intro x hx
    simp only [List.reverse_nil, List.nil_append] at hx
    exact hwf.1 x hx
  have hpwE : List.Pairwise rowLt (([] : List RsNode).reverse ++ ns) := by
    simp only [List.reverse_nil, List.nil_append]
    exact hwf.2
  have hbr : extract_rust_chunks ns = specGo [] ns :=
    extract_go_eq_specGo ns.length ns [] [] (Nat.le_refl _) hordE hpwE
      (by intro r hr; simp at hr)
  refine ⟨?_, ?_, ?_⟩
  · intro hcv ch hch hchk
    rw [hbr] at hch
    exact specA ns hwf pre c post hdec hck hcv ch hch hchk
  · intro hcv
    rw [hbr]
    exact specGo_visits ns.length ns [] (Nat.le_refl _) hordE hpwE pre c post
      hdec hck hcv
  · intro hcv hadj
    rw [hbr]
    apply specGo_exact ns.length ns [] (Nat.le_refl _) pre c post hdec hck hcv
    intro p hp
    apply hadj p
    rw [List.append_nil] at hp
    exact hp

instance (a b : RsNode) : Decidable (rowLt a b) :=
  inferInstanceAs (Decidable (a.end_row < b.start_row))

def c8wn0 : RsNode := ⟨RsNodeKind.line_comment, 0, 0⟩

def c8wn1 : RsNode := ⟨RsNodeKind.line_comment, 1, 1⟩

def c8wn2 : RsNode := ⟨RsNodeKind.line_comment, 4, 4⟩

def c8wn3 : RsNode := ⟨RsNodeKind.struct_item, 5, 5⟩

def c8wns : List RsNode := [c8wn0, c8wn1, c8wn2, c8wn3]

/-- Witness for C8 on the parse of `// a\n// b\n\n\n// doc\nstruct S;`: the
two-comment run at rows 0-1 collapses into the Comment chunk with lines
1-2, and the doc comment at row 4 (line 5) is covered by no Comment
chunk. -/
theorem C8_comment_chunk_policy_witness :
    (({ kind := ChunkKind.Comment, start_line := 1, end_line := 2 } : RsChunk) ∈
      extract_rust_chunks c8wns) ∧
    (∀ ch ∈ extract_rust_chunks c8wns, ch.kind = ChunkKind.Comment →
      ¬(ch.start_line ≤ 5 ∧ 5 ≤ ch.end_line)) := by
  constructor
  · exact (C8_comment_chunk_policy c8wns ⟨by decide, by decide⟩ [] c8wn0
      [c8wn1, c8wn2, c8wn3] rfl rfl).2.2 (by decide) (by intro p hp; simp at hp)
  · intro ch hch hchk hcover
    exact (C8_comment_chunk_policy c8wns ⟨by decide, by decide⟩ [c8wn0, c8wn1] c8wn2
      [c8wn3] rfl rfl).1 (by decide) ch hch hchk hcover

end RustDocsEmbed
